import Mathlib

/-!
Verification of the hasheddict incremental hash-tree engine
(src/hasheddict/__init__.py) against its natural-language specification.

Python byte strings are modelled as lists of naturals (`Bytes`); the
pluggable digest primitive (`hashlib.sha256`-style factories) is modelled as
an arbitrary function `H : Bytes → Bytes` sending the concatenated update
bytes to the final digest.  Machine integers are modelled as `Nat` with
explicit `% 2^w` where the source masks; bitwise operations are modelled by
structural fuelled recursions so that concrete runs evaluate by `decide`.
-/

set_option maxRecDepth 10000

set_option maxHeartbeats 1000000

/-- Python byte strings (`str` in Python 2) as lists of byte values. -/
abbrev Bytes := List Nat

/-! ## Lexicographic order on byte strings and Python list sort

Python's `list.sort()` on byte strings sorts lexicographically.  We model it
with insertion sort over the following comparison, which matches Python's
`<=` on strings (shorter prefix sorts first). -/

/-- Lexicographic `<=` on byte strings, as Python compares `str` values. -/
def bytesLe : List Nat → List Nat → Bool
  | [], _ => true
  | _ :: _, [] => false
  | a :: as, b :: bs => if a < b then true else if b < a then false else bytesLe as bs

/-- Propositional form of `bytesLe`. -/
def bytesLE (a b : Bytes) : Prop := bytesLe a b = true

instance : DecidableRel bytesLE := fun a b => by
  unfold bytesLE; infer_instance

theorem bytesLe_total : ∀ a b : Bytes, bytesLe a b = true ∨ bytesLe b a = true := by
  intro a
  induction a with
  | nil => intro b; left; rfl
  | cons x xs ih =>
    intro b
    cases b with
    | nil => right; rfl
    | cons y ys =>
      simp only [bytesLe]
      rcases Nat.lt_trichotomy x y with h | h | h
      · left; simp [h]
      · subst h
        have := ih ys
        simp only [Nat.lt_irrefl, if_false]
        exact this
      · right; simp [h, Nat.not_lt_of_lt h]

theorem bytesLe_cons_iff {x y : Nat} {xs ys : List Nat} :
    bytesLe (x :: xs) (y :: ys) = true ↔
      x < y ∨ (x = y ∧ bytesLe xs ys = true) := by
  simp only [bytesLe]
  split
  · next h => simp [h]
  · next h =>
    split
    · next h2 =>
      constructor
      · intro hf; exact absurd hf (by simp)
      · intro hh; exfalso; rcases hh with hh | ⟨hh, _⟩ <;> omega
    · next h2 =>
      constructor
      · intro hh; right; exact ⟨by omega, hh⟩
      · intro hh
        rcases hh with hh | ⟨_, hh2⟩
        · omega
        · exact hh2

theorem bytesLe_trans : ∀ a b c : Bytes,
    bytesLe a b = true → bytesLe b c = true → bytesLe a c = true := by
  intro a
  induction a with
  | nil => intro b c _ _; rfl
  | cons x xs ih =>
    intro b c hab hbc
    cases b with
    | nil => simp [bytesLe] at hab
    | cons y ys =>
      cases c with
      | nil => simp [bytesLe] at hbc
      | cons z zs =>
        rw [bytesLe_cons_iff] at hab hbc ⊢
        rcases hab with hab | ⟨hab, hab2⟩ <;> rcases hbc with hbc | ⟨hbc, hbc2⟩
        · left; omega
        · left; omega
        · left; omega
        · right
          exact ⟨by omega, ih ys zs hab2 hbc2⟩

theorem bytesLe_antisymm : ∀ a b : Bytes,
    bytesLe a b = true → bytesLe b a = true → a = b := by
  intro a
  induction a with
  | nil =>
    intro b _ hba
    cases b with
    | nil => rfl
    | cons y ys => simp [bytesLe] at hba
  | cons x xs ih =>
    intro b hab hba
    cases b with
    | nil => simp [bytesLe] at hab
    | cons y ys =>
      rw [bytesLe_cons_iff] at hab hba
      rcases hab with hab | ⟨hab, hab2⟩ <;> rcases hba with hba | ⟨hba, hba2⟩ <;>
        try omega
      subst hab
      exact congrArg (x :: ·) (ih ys hab2 hba2)

instance : IsTotal Bytes bytesLE := ⟨fun a b => bytesLe_total a b⟩

instance : IsTrans Bytes bytesLE := ⟨fun a b c => bytesLe_trans a b c⟩

instance : IsAntisymm Bytes bytesLE := ⟨fun a b => bytesLe_antisymm a b⟩

/-- Python's in-place `leaf_items.sort()` (lexicographic sort of byte
strings), modelled as insertion sort.  Any correct sort gives the same
result list, since byte strings compare by value. -/
def sortBytes (l : List Bytes) : List Bytes := List.insertionSort bytesLE l

theorem sortBytes_perm (l : List Bytes) : (sortBytes l).Perm l :=
  List.perm_insertionSort bytesLE l

theorem sortBytes_sorted (l : List Bytes) : List.Sorted bytesLE (sortBytes l) :=
  List.sorted_insertionSort bytesLE l

theorem sortBytes_eq_of_perm {l₁ l₂ : List Bytes} (h : l₁.Perm l₂) :
    sortBytes l₁ = sortBytes l₂ :=
  List.eq_of_perm_of_sorted
    (((sortBytes_perm l₁).trans h).trans (sortBytes_perm l₂).symm)
    (sortBytes_sorted l₁) (sortBytes_sorted l₂)

theorem sortBytes_idem (l : List Bytes) : sortBytes (sortBytes l) = sortBytes l :=
  sortBytes_eq_of_perm (sortBytes_perm l)

theorem count_perm {l₁ l₂ : List Bytes} (p : l₁.Perm l₂) (a : Bytes) :
    l₁.count a = l₂.count a := by
  induction p with
  | nil => rfl
  | cons x _ ih => simp [List.count_cons, ih]
  | swap x y l => simp only [List.count_cons]; omega
  | trans _ _ ih1 ih2 => exact ih1.trans ih2

theorem count_sortBytes (l : List Bytes) (a : Bytes) :
    (sortBytes l).count a = l.count a :=
  count_perm (sortBytes_perm l) a

/-! ## Structural bitwise operations and CRC-32

`zlib.crc32` is the reflected CRC-32 (polynomial `0xEDB88320`, initial value
`0xFFFFFFFF`, final xor `0xFFFFFFFF`).  The source masks the Python 2 signed
result with `& 0xffffffff`; our `crc32` directly produces that unsigned
value.  Xor and bitwise-and are modelled by fuelled structural recursion on
binary digits so that the kernel can evaluate them. -/

/-- Bitwise xor of the low `fuel` bits of two naturals. -/
def xorAux : Nat → Nat → Nat → Nat
  | 0, _, _ => 0
  | fuel + 1, a, b => (a + b) % 2 + 2 * xorAux fuel (a / 2) (b / 2)

/-- Bitwise and of the low `fuel` bits of two naturals. -/
def landAux : Nat → Nat → Nat → Nat
  | 0, _, _ => 0
  | fuel + 1, a, b => (a % 2) * (b % 2) + 2 * landAux fuel (a / 2) (b / 2)

/-- The reflected CRC-32 polynomial used by zlib. -/
def crc32Poly : Nat := 0xEDB88320

/-- One bit step of the reflected CRC-32: shift right, conditionally xor
the polynomial. -/
def crc32Bit (c : Nat) : Nat :=
  if c % 2 = 1 then xorAux 32 (c / 2) crc32Poly else c / 2

/-- Absorb one input byte into the CRC state. -/
def crc32Byte (c b : Nat) : Nat :=
  crc32Bit (crc32Bit (crc32Bit (crc32Bit (crc32Bit (crc32Bit (crc32Bit (crc32Bit
    (xorAux 32 c b))))))))

/-- Model of `zlib.crc32(data) & 0xffffffff`: the standard unsigned CRC-32
of a byte string. -/
def crc32 (data : Bytes) : Nat :=
  xorAux 32 (data.foldl crc32Byte 0xFFFFFFFF) 0xFFFFFFFF

/-! ## Bucket positions

`HashTree.add` and `HashTree.delete` compute
`(crc32(key) & 0xffffffff) & ((1 << self.__tree_depth) - 1)`, while
`HashTree.__build_leaf_items` computes
`(crc32(key) & 0xffffffff) % leaf_count` with `leaf_count = 1 << depth`.
Both are embedded; the mask is a genuine bitwise and. -/

/-- Bucket index used by `HashTree.add` and `HashTree.delete`:
the CRC masked to 32 bits, then masked by the low `depth` bits. -/
def positionMask (key : Bytes) (depth : Nat) : Nat :=
  landAux 32 (crc32 key % 2 ^ 32) (2 ^ depth - 1)

/-- Bucket index used by `HashTree.__build_leaf_items`:
the CRC masked to 32 bits, reduced modulo the bucket count `2^depth`. -/
def positionMod (key : Bytes) (depth : Nat) : Nat :=
  (crc32 key % 2 ^ 32) % 2 ^ depth

theorem landAux_zero_right : ∀ fuel a, landAux fuel a 0 = 0 := by
  intro fuel
  induction fuel with
  | zero => intro a; rfl
  | succ f ih => intro a; simp [landAux, ih]

theorem xorAux_lt : ∀ fuel a b, xorAux fuel a b < 2 ^ fuel := by
  intro fuel
  induction fuel with
  | zero => intro a b; simp [xorAux]
  | succ f ih =>
    intro a b
    have h := ih (a / 2) (b / 2)
    have : (a + b) % 2 < 2 := Nat.mod_lt _ (by omega)
    simp only [xorAux, pow_succ]
    omega

/-- A bitwise and with an all-ones mask `2^d - 1` is reduction modulo
`2^d`, for arguments fitting in the fuel. -/
theorem landAux_ones : ∀ fuel a d, a < 2 ^ fuel →
    landAux fuel a (2 ^ d - 1) = a % 2 ^ d := by
  intro fuel
  induction fuel with
  | zero =>
    intro a d ha
    interval_cases a
    simp [landAux]
  | succ f ih =>
    intro a d ha
    cases d with
    | zero =>
      show landAux (f+1) a (2 ^ 0 - 1) = a % 2 ^ 0
      simp [landAux, landAux_zero_right, Nat.mod_one]
    | succ e =>
      have h2 : (2:ℕ) ^ (e+1) = 2 * 2 ^ e := by ring
      have hpos : (0:ℕ) < 2 ^ e := Nat.pos_pow_of_pos _ (by omega)
      have hb2 : (2 ^ (e+1) - 1) % 2 = 1 := by omega
      have hbd : (2 ^ (e+1) - 1) / 2 = 2 ^ e - 1 := by omega
      have hlt : a / 2 < 2 ^ f := by
        have : (2:ℕ) ^ (f+1) = 2 * 2 ^ f := by ring
        omega
      have ihh := ih (a / 2) e hlt
      have key : landAux (f+1) a (2 ^ (e+1) - 1) = a % 2 + 2 * (a / 2 % 2 ^ e) := by
        simp only [landAux]
        rw [hb2, hbd, ihh, mul_one]
      rw [key, h2, Nat.mod_mul]

/-- The two bucket-index computations in the source agree at every depth. -/
theorem positionMask_eq_positionMod (key : Bytes) (depth : Nat) :
    positionMask key depth = positionMod key depth := by
  unfold positionMask positionMod
  exact landAux_ones 32 _ depth (Nat.mod_lt _ (by positivity))

theorem positionMod_lt (key : Bytes) (depth : Nat) :
    positionMod key depth < 2 ^ depth :=
  Nat.mod_lt _ (by positivity)

theorem positionMask_lt (key : Bytes) (depth : Nat) :
    positionMask key depth < 2 ^ depth := by
  rw [positionMask_eq_positionMod]; exact positionMod_lt key depth

/-! ## Serialization and leaf digests

`HashedDict.__hash_item` computes
`H(H(repr(key)).digest() + H(repr(value)).digest()).digest()`.
For the printable ASCII byte strings (without quotes or backslashes) used
throughout, Python 2's `repr` of a `str` wraps it in single quotes (byte
39); we embed `repr` on that domain. -/

/-- Python 2 `repr` of a plain byte string without quotes, backslashes or
non-printable bytes: the string wrapped in single quotes. -/
def pyRepr (s : Bytes) : Bytes := 39 :: (s ++ [39])

/-- Model of `HashedDict.__hash_item`: the leaf digest of a key/value
pair, `H(H(repr key) ++ H(repr value))`. -/
def hashItem (H : Bytes → Bytes) (key value : Bytes) : Bytes :=
  H (H (pyRepr key) ++ H (pyRepr value))

/-- Model of `HashTree.__hash_leaf`: sort the bucket in place, feed each
member to the hasher in order, finalize.  The digest is the hash of the
sorted concatenation. -/
def hashLeaf (H : Bytes → Bytes) (items : List Bytes) : Bytes :=
  H (sortBytes items).flatten

theorem hashLeaf_perm (H : Bytes → Bytes) {l₁ l₂ : List Bytes} (h : l₁.Perm l₂) :
    hashLeaf H l₁ = hashLeaf H l₂ := by
  unfold hashLeaf
  rw [sortBytes_eq_of_perm h]

theorem hashLeaf_sortBytes (H : Bytes → Bytes) (l : List Bytes) :
    hashLeaf H (sortBytes l) = hashLeaf H l :=
  hashLeaf_perm H (sortBytes_perm l)

theorem hashLeaf_nil (H : Bytes → Bytes) : hashLeaf H [] = H [] := rfl

/-! ## Required tree depth

`HashedDict.__get_depth_for_length` returns `0` for length `0` and
`int(ceil(log(length, 2)))` otherwise.  With exact real arithmetic (the
source computes the logarithm in floating point) this is the least `d`
with `2^d >= length`; we embed that function by the fuelled recursion
`ceil(log2 n) = ceil(log2 (ceil(n/2))) + 1` for `n >= 2`. -/

/-- Fuelled ceiling base-2 logarithm: least `d` with `n <= 2^d`, for
`1 <= n <= fuel`. -/
def ceilLog2Aux : Nat → Nat → Nat
  | 0, _ => 0
  | fuel + 1, n => if n ≤ 1 then 0 else ceilLog2Aux fuel ((n + 1) / 2) + 1

/-- Model of `HashedDict.__get_depth_for_length`. -/
def getDepthForLength (length : Nat) : Nat :=
  if length = 0 then 0 else ceilLog2Aux length length

theorem ceilLog2Aux_le_iff : ∀ (fuel n d : Nat), 1 ≤ n → n ≤ fuel →
    (ceilLog2Aux fuel n ≤ d ↔ n ≤ 2 ^ d) := by
  intro fuel
  induction fuel with
  | zero => intro n d h1 h2; omega
  | succ f ih =>
    intro n d h1 h2
    by_cases hn : n ≤ 1
    · have : n = 1 := by omega
      subst this
      simp [ceilLog2Aux, Nat.one_le_two_pow]
    · have hrec : ceilLog2Aux (f+1) n = ceilLog2Aux f ((n+1)/2) + 1 := by
        simp [ceilLog2Aux, hn]
      rw [hrec]
      cases d with
      | zero =>
        simp only [pow_zero]
        omega
      | succ e =>
        have h2e : (2:ℕ) ^ (e+1) = 2 * 2 ^ e := by ring
        have ihh := ih ((n+1)/2) e (by omega) (by omega)
        constructor
        · intro h
          have := ihh.mp (by omega)
          omega
        · intro h
          have := ihh.mpr (by omega)
          omega

theorem getDepthForLength_le_iff {n : Nat} (hn : 1 ≤ n) (d : Nat) :
    getDepthForLength n ≤ d ↔ n ≤ 2 ^ d := by
  unfold getDepthForLength
  rw [if_neg (by omega)]
  exact ceilLog2Aux_le_iff n n d hn (le_refl n)

theorem getDepthForLength_zero : getDepthForLength 0 = 0 := rfl

theorem getDepthForLength_spec {n : Nat} (hn : 1 ≤ n) :
    n ≤ 2 ^ getDepthForLength n ∧ ∀ d, n ≤ 2 ^ d → getDepthForLength n ≤ d := by
  constructor
  · exact (getDepthForLength_le_iff hn _).mp (le_refl _)
  · intro d h
    exact (getDepthForLength_le_iff hn d).mpr h

theorem getDepthForLength_mono : ∀ {m n : Nat}, m ≤ n →
    getDepthForLength m ≤ getDepthForLength n := by
  intro m n h
  by_cases hm : m = 0
  · subst hm; simp [getDepthForLength_zero]
  · have h1 : 1 ≤ m := by omega
    have h1n : 1 ≤ n := by omega
    rw [getDepthForLength_le_iff h1]
    calc m ≤ n := h
      _ ≤ 2 ^ getDepthForLength n := (getDepthForLength_spec h1n).1

theorem getDepthForLength_succ_le (n : Nat) :
    getDepthForLength (n + 1) ≤ getDepthForLength n + 1 := by
  by_cases hn : n = 0
  · subst hn
    simp [getDepthForLength, ceilLog2Aux]
  · have h1 : 1 ≤ n := by omega
    rw [getDepthForLength_le_iff (by omega)]
    have hn2 : n ≤ 2 ^ getDepthForLength n := (getDepthForLength_spec h1).1
    have : (2:ℕ) ^ (getDepthForLength n + 1) = 2 * 2 ^ getDepthForLength n := by ring
    omega

/-! ## The hash tree (`class HashTree`)

A `HashTree` of depth `d` stores `2^d` buckets of leaf digests
(`self.__leaf_hashes`) and `d+1` rows of node digests (`self.__tree`),
row `i` having `2^i` entries; row `d` is the bucket-digest row and row `0`
holds the root.  The placeholder `None` entries written by
`__build_tree` (all overwritten by `__rehash_all` before any read) are
modelled as `[]`. -/

structure HashTree where
  depth : Nat
  leafHashes : List (List Bytes)
  rows : List (List Bytes)
deriving DecidableEq

/-- Model of `HashTree.__build_tree`: `depth+1` rows of placeholders,
row `i` of length `2^i`. -/
def buildTree (depth : Nat) : List (List Bytes) :=
  (List.range (depth + 1)).map (fun i => List.replicate (2 ^ i) ([] : Bytes))

/-- One step of the `__build_leaf_items` scan: append the leaf digest
to the bucket selected by `(crc32(key) & 0xffffffff) % leaf_count`. -/
def buildLeafStep (depth : Nat) (acc : List (List Bytes)) (kv : Bytes × Bytes) :
    List (List Bytes) :=
  acc.set (positionMod kv.1 depth)
    (acc.getD (positionMod kv.1 depth) [] ++ [kv.2])

/-- Model of `HashTree.__build_leaf_items`: scan the key-to-hash
snapshot, appending each leaf digest to its bucket. -/
def buildLeafItems (keyToHash : List (Bytes × Bytes)) (depth : Nat) :
    List (List Bytes) :=
  keyToHash.foldl (buildLeafStep depth) (List.replicate (2 ^ depth) ([] : List Bytes))

/-- Model of the ancestor-chain loop in `HashTree.__rehash`: for
`row_nr` from `rowNr` down to `1`, compute
`rchild_pos = lchild_pos | (1 << (row_nr-1))` and
`lchild_pos = lchild_pos & ((1 << (row_nr-1)) - 1)` and store
`H(children_row[lchild] ++ children_row[rchild])` at the parent.  The
bit operations are written arithmetically: for `lchild_pos < 2^row_nr`,
or-ing bit `row_nr - 1` gives `lchild_pos % 2^(row_nr-1) + 2^(row_nr-1)`
and masking gives `lchild_pos % 2^(row_nr-1)`. -/
def rehashChain (H : Bytes → Bytes) (rows : List (List Bytes)) :
    Nat → Nat → List (List Bytes)
  | 0, _ => rows
  | r + 1, lchildPos =>
    let rchild := lchildPos % 2 ^ r + 2 ^ r
    let lchild := lchildPos % 2 ^ r
    let childrenRow := rows.getD (r + 1) []
    let rows2 := rows.set r
      ((rows.getD r []).set lchild
        (H (childrenRow.getD lchild [] ++ childrenRow.getD rchild [])))
    rehashChain H rows2 r lchild

/-- Model of `HashTree.__rehash`: recompute the digest of the changed
bucket (sorting the bucket in place via `__hash_leaf`), then walk the
ancestor chain up to the root. -/
def rehash (H : Bytes → Bytes) (t : HashTree) (leafPosition : Nat) : HashTree :=
  let leafItems := t.leafHashes.getD leafPosition []
  let rows0 := t.rows.set t.depth
    ((t.rows.getD t.depth []).set leafPosition (hashLeaf H leafItems))
  { t with
    leafHashes := t.leafHashes.set leafPosition (sortBytes leafItems)
    rows := rehashChain H rows0 t.depth leafPosition }

/-- Model of `HashTree.__rehash_parent` for `__rehash_all`:
`lchild_pos = element_pos & ((1 << (row_nr-1)) - 1)`,
`rchild_pos = element_pos | (1 << (row_nr-1))` (with
`element_pos < 2^(row_nr-1)`, so the or adds the bit), written
arithmetically. -/
def rehashParent (H : Bytes → Bytes) (rows : List (List Bytes))
    (rowNr elementPos : Nat) : List (List Bytes) :=
  let lchild := elementPos % 2 ^ (rowNr - 1)
  let rchild := elementPos % 2 ^ (rowNr - 1) + 2 ^ (rowNr - 1)
  let childrenRow := rows.getD rowNr []
  rows.set (rowNr - 1)
    ((rows.getD (rowNr - 1) []).set lchild
      (H (childrenRow.getD lchild [] ++ childrenRow.getD rchild [])))

/-- Model of the inner loop of `HashTree.__rehash_all`: recompute every
parent in row `rowNr - 1` from row `rowNr` (`(len(row)+1)/2` parents). -/
def rehashRow (H : Bytes → Bytes) (rows : List (List Bytes)) (rowNr : Nat) :
    List (List Bytes) :=
  (List.range (((rows.getD rowNr []).length + 1) / 2)).foldl
    (fun rs p => rehashParent H rs rowNr p) rows

/-- Model of the outer loop of `HashTree.__rehash_all`:
`for row_nr in xrange(depth, 0, -1)`. -/
def rehashAllRows (H : Bytes → Bytes) (rows : List (List Bytes)) :
    Nat → List (List Bytes)
  | 0 => rows
  | r + 1 => rehashAllRows H (rehashRow H rows (r + 1)) r

/-- Model of `HashTree.__rehash_all`: set the bucket-digest row (sorting
every bucket in place via `__hash_leaf`), then recompute every internal
row bottom-up. -/
def rehashAll (H : Bytes → Bytes) (t : HashTree) : HashTree :=
  let rows0 := t.rows.set t.depth (t.leafHashes.map (hashLeaf H))
  { t with
    leafHashes := t.leafHashes.map sortBytes
    rows := rehashAllRows H rows0 t.depth }

/-- Model of `HashTree.__init__` followed by `run()` (the builder thread
joined): snapshot the key-to-hash map, build placeholder rows and the
bucket lists, and compute every digest. -/
def treeInit (H : Bytes → Bytes) (keyToHash : List (Bytes × Bytes))
    (depth : Nat) : HashTree :=
  rehashAll H
    { depth := depth
      leafHashes := buildLeafItems keyToHash depth
      rows := buildTree depth }

/-- Model of `HashTree.get_hash`: the single entry of row `0`. -/
def treeGetHash (t : HashTree) : Bytes := (t.rows.getD 0 []).getD 0 []

/-- Model of `HashTree.add`: append the leaf digest to the key's bucket
(selected by the masked CRC) and rehash that leaf position. -/
def treeAdd (H : Bytes → Bytes) (t : HashTree) (key hashValue : Bytes) :
    HashTree :=
  let position := positionMask key t.depth
  rehash H
    { t with leafHashes :=
        t.leafHashes.set position (t.leafHashes.getD position [] ++ [hashValue]) }
    position

/-- Model of the loop `while hash_value in leaf_hashes[position]:
leaf_hashes[position].remove(hash_value)`, which removes every
occurrence (fuelled by the list length; each `remove` drops the first
occurrence). -/
def removeAllAux (hashValue : Bytes) : Nat → List Bytes → List Bytes
  | 0, l => l
  | fuel + 1, l => if hashValue ∈ l then removeAllAux hashValue fuel (l.erase hashValue) else l

/-- Remove every occurrence of `hashValue`, as `HashTree.delete` does. -/
def removeAll (hashValue : Bytes) (l : List Bytes) : List Bytes :=
  removeAllAux hashValue l.length l

/-- Model of `HashTree.delete`: drop every occurrence of the given leaf
digest from the key's bucket and rehash that leaf position.  Note there
is no check that the digest was present: an absent digest makes the loop
a no-op and no error is raised. -/
def treeDelete (H : Bytes → Bytes) (t : HashTree) (key hashValue : Bytes) :
    HashTree :=
  let position := positionMask key t.depth
  rehash H
    { t with leafHashes :=
        t.leafHashes.set position (removeAll hashValue (t.leafHashes.getD position [])) }
    position

/-- The bucket at index `i` (empty when out of range). -/
def bucketAt (t : HashTree) (i : Nat) : List Bytes := t.leafHashes.getD i []

/-! ## The container (`class HashedDict`)

The container state consists of the underlying `dict` contents
(`entries`, an association list in insertion order modelling Python's
dict semantics: assignment replaces in place, deletion removes the
entry), the private `__key_to_hash` map, the warm trees keyed by depth
(`__trees`), and the configured cache window size
(`__trees_cache_size`). -/

structure HDState where
  entries : List (Bytes × Bytes)
  keyToHash : List (Bytes × Bytes)
  trees : List (Nat × HashTree)
  cacheSize : Nat

/-- Python dict assignment on an association list: replace the value in
place if the key is present, else append. -/
def assocSet {α β : Type} [DecidableEq α] :
    List (α × β) → α → β → List (α × β)
  | [], k, v => [(k, v)]
  | (k', v') :: rest, k, v =>
    if k' = k then (k, v) :: rest else (k', v') :: assocSet rest k v

/-- Python dict deletion on an association list: remove the (unique)
entry with the given key. -/
def assocErase {α β : Type} [DecidableEq α] (l : List (α × β)) (k : α) :
    List (α × β) :=
  l.eraseP (fun p => decide (p.1 = k))

/-- Window of depths kept warm: `range(start, start + W)` with
`start = max(0, curr - W/2)` (natural subtraction models the `max`;
`W/2` is Python 2 floor division). -/
def allowedTreeDepths (currDepth cacheSize : Nat) : List Nat :=
  List.range' (currDepth - cacheSize / 2) cacheSize

/-- Model of `HashedDict.__manage_cached_trees`: compute the allowed
window from the container's current length, drop warm trees outside it,
and build (from the current `__key_to_hash`) a tree for each depth in
the window that lacks one. -/
def manageCachedTrees (H : Bytes → Bytes) (s : HDState) : HDState :=
  let dictLength := s.entries.length
  let currDepth := getDepthForLength dictLength
  let allowed := allowedTreeDepths currDepth s.cacheSize
  let kept := s.trees.filter (fun p => allowed.contains p.1)
  let newKeys := allowed.filter (fun d => (s.trees.lookup d).isNone)
  { s with trees := kept ++ newKeys.map (fun d => (d, treeInit H s.keyToHash d)) }

/-- Model of `HashedDict.__setitem__`: store the new leaf digest in
`__key_to_hash` first; if the key was already present, call
`tree.delete(key, hash_value)` on every warm tree — with the **new**
digest, since `__key_to_hash[key]` was already overwritten; store the
entry; `tree.add(key, hash_value)` on every warm tree; reconcile the
cache. -/
def setItem (H : Bytes → Bytes) (s : HDState) (key value : Bytes) : HDState :=
  let hashValue := hashItem H key value
  let kth := assocSet s.keyToHash key hashValue
  let trees1 :=
    if (s.entries.lookup key).isSome then
      s.trees.map (fun p => (p.1, treeDelete H p.2 key hashValue))
    else s.trees
  let entries1 := assocSet s.entries key value
  let trees2 := trees1.map (fun p => (p.1, treeAdd H p.2 key hashValue))
  manageCachedTrees H
    { s with entries := entries1, keyToHash := kth, trees := trees2 }

/-- Model of `HashedDict.__delitem__`: reconcile the cache first (with
the **pre-deletion** length), then `tree.delete(key, __key_to_hash[key])`
on every warm tree, then remove the key from `__key_to_hash` and from
the dict.  (The source raises `KeyError` for an absent key when reading
`__key_to_hash[key]`; runs are restricted to present keys.) -/
def delItem (H : Bytes → Bytes) (s : HDState) (key : Bytes) : HDState :=
  let s1 := manageCachedTrees H s
  let hashValue := (s1.keyToHash.lookup key).getD []
  let trees1 := s1.trees.map (fun p => (p.1, treeDelete H p.2 key hashValue))
  { s1 with
    entries := assocErase s1.entries key
    keyToHash := assocErase s1.keyToHash key
    trees := trees1 }

/-- Model of `HashedDict.get_hash`: look up the tree for the depth of
the current length and return its root (`None` models the `KeyError`
when that depth is not warm). -/
def getHash (s : HDState) : Option Bytes :=
  (s.trees.lookup (getDepthForLength s.entries.length)).map treeGetHash

/-- Model of `HashedDict.__init__` with no initial items: an empty map
and a single warm tree of depth `0`, built synchronously. -/
def initHD (H : Bytes → Bytes) (cacheSize : Nat) : HDState :=
  { entries := []
    keyToHash := []
    trees := [(0, treeInit H [] 0)]
    cacheSize := cacheSize }

/-- A container mutation: `d[key] = value` or `del d[key]`. -/
inductive DictOp where
  | set (key value : Bytes)
  | del (key : Bytes)

/-- The key an operation mentions. -/
def DictOp.key : DictOp → Bytes
  | .set k _ => k
  | .del k => k

/-- Run one mutation. -/
def runOp (H : Bytes → Bytes) (s : HDState) : DictOp → HDState
  | .set k v => setItem H s k v
  | .del k => delItem H s k

/-- Run a list of mutations in order. -/
def runOps (H : Bytes → Bytes) (s : HDState) (ops : List DictOp) : HDState :=
  ops.foldl (runOp H) s

/-- Minimal validity: deletions only of present keys (otherwise the
source raises `KeyError`).  Sets are unrestricted (overwrites allowed). -/
def okOp (s : HDState) : DictOp → Bool
  | .set _ _ => true
  | .del k => (s.entries.lookup k).isSome

/-- Validity of a run of mutations under `okOp`. -/
def okRun (H : Bytes → Bytes) : HDState → List DictOp → Bool
  | _, [] => true
  | s, op :: ops => okOp s op && okRun H (runOp H s op) ops

/-- Strong validity: sets only of fresh keys whose leaf digest is not
already a stored digest (no overwrites, no digest collisions among live
keys), deletions only of present keys. -/
def goodOp (H : Bytes → Bytes) (s : HDState) : DictOp → Bool
  | .set k v =>
    (s.entries.lookup k).isNone &&
      !((s.keyToHash.map Prod.snd).contains (hashItem H k v))
  | .del k => (s.entries.lookup k).isSome

/-- Validity of a run of mutations under `goodOp`. -/
def goodRun (H : Bytes → Bytes) : HDState → List DictOp → Bool
  | _, [] => true
  | s, op :: ops => goodOp H s op && goodRun H (runOp H s op) ops

/-! ## Small list helpers -/

theorem getD_set_self {α : Type} {l : List α} {i : Nat} {v d : α}
    (h : i < l.length) : (l.set i v).getD i d = v := by
  simp [List.getD_eq_getElem?_getD, List.getElem?_set_self h]

theorem getD_set_ne {α : Type} {l : List α} {i j : Nat} {v : α} {d : α}
    (h : i ≠ j) : (l.set i v).getD j d = l.getD j d := by
  simp [List.getD_eq_getElem?_getD, List.getElem?_set_ne h]

theorem getD_eq_getElem {α : Type} {l : List α} {i : Nat} {d : α}
    (h : i < l.length) : l.getD i d = l[i] := by
  simp [List.getD_eq_getElem?_getD, List.getElem?_eq_getElem h]

/-! ## Behaviour of `removeAll` (the delete loop) -/

theorem erase_filter_ne (h : Bytes) :
    ∀ l : List Bytes, (l.erase h).filter (fun x => decide (x ≠ h))
      = l.filter (fun x => decide (x ≠ h)) := by
  intro l
  induction l with
  | nil => rfl
  | cons a tl ih =>
    by_cases ha : a = h
    · subst ha
      rw [List.erase_cons_head]
      simp
    · rw [List.erase_cons_tail (by simp [bne_iff_ne, ha])]
      simp only [List.filter_cons]
      rw [ih]

theorem removeAllAux_filter (h : Bytes) : ∀ (fuel : Nat) (l : List Bytes),
    l.length ≤ fuel →
    removeAllAux h fuel l = l.filter (fun x => decide (x ≠ h)) := by
  intro fuel
  induction fuel with
  | zero =>
    intro l hl
    have : l = [] := List.eq_nil_of_length_eq_zero (by omega)
    subst this; rfl
  | succ f ih =>
    intro l hl
    by_cases hm : h ∈ l
    · rw [show removeAllAux h (f+1) l
            = removeAllAux h f (l.erase h) from by simp [removeAllAux, hm]]
      rw [ih (l.erase h) (by rw [List.length_erase_of_mem hm]; omega)]
      exact erase_filter_ne h l
    · rw [show removeAllAux h (f+1) l = l from by simp [removeAllAux, hm]]
      exact (List.filter_eq_self.mpr (fun a ha => by
        simp only [decide_eq_true_eq]
        intro hc; subst hc; exact hm ha)).symm

theorem removeAll_filter (h : Bytes) (l : List Bytes) :
    removeAll h l = l.filter (fun x => decide (x ≠ h)) :=
  removeAllAux_filter h l.length l (le_refl _)

theorem count_removeAll_self (h : Bytes) (l : List Bytes) :
    (removeAll h l).count h = 0 := by
  rw [removeAll_filter, List.count_eq_zero]
  intro hc
  have := (List.mem_filter.mp hc).2
  simp at this

theorem count_removeAll_ne {h h' : Bytes} (hne : h' ≠ h) (l : List Bytes) :
    (removeAll h l).count h' = l.count h' := by
  rw [removeAll_filter]
  exact List.count_filter (by simpa using hne)

theorem removeAll_of_not_mem {h : Bytes} {l : List Bytes} (hm : h ∉ l) :
    removeAll h l = l := by
  rw [removeAll_filter]
  exact List.filter_eq_self.mpr (fun a ha => by
    simp only [decide_eq_true_eq]
    intro hc; subst hc; exact hm ha)

/-! ## Bucket-level behaviour of add and delete -/

theorem rehash_leafHashes (H : Bytes → Bytes) (t : HashTree) (pos : Nat) :
    (rehash H t pos).leafHashes
      = t.leafHashes.set pos (sortBytes (t.leafHashes.getD pos [])) := rfl

theorem rehash_depth (H : Bytes → Bytes) (t : HashTree) (pos : Nat) :
    (rehash H t pos).depth = t.depth := rfl

theorem treeDelete_leafHashes (H : Bytes → Bytes) (t : HashTree) (k h : Bytes)
    (hlen : t.leafHashes.length = 2 ^ t.depth) :
    (treeDelete H t k h).leafHashes
      = t.leafHashes.set (positionMask k t.depth)
          (sortBytes (removeAll h (t.leafHashes.getD (positionMask k t.depth) []))) := by
  have hpos : positionMask k t.depth < t.leafHashes.length := by
    rw [hlen]; exact positionMask_lt k t.depth
  show (t.leafHashes.set _ _).set _ (sortBytes ((t.leafHashes.set _ _).getD _ []))
      = _
  rw [getD_set_self hpos, List.set_set]

theorem treeAdd_leafHashes (H : Bytes → Bytes) (t : HashTree) (k h : Bytes)
    (hlen : t.leafHashes.length = 2 ^ t.depth) :
    (treeAdd H t k h).leafHashes
      = t.leafHashes.set (positionMask k t.depth)
          (sortBytes (t.leafHashes.getD (positionMask k t.depth) [] ++ [h])) := by
  have hpos : positionMask k t.depth < t.leafHashes.length := by
    rw [hlen]; exact positionMask_lt k t.depth
  show (t.leafHashes.set _ _).set _ (sortBytes ((t.leafHashes.set _ _).getD _ []))
      = _
  rw [getD_set_self hpos, List.set_set]

/-! ## Concrete digest primitive for explicit runs

An injective stand-in for `sha256` (prefixing a tag byte) used where a
claim is evaluated at an explicit input. -/

/-- Concrete injective digest primitive for explicit counterexamples and
witnesses. -/
def tagHash : Bytes → Bytes := fun l => 1 :: l

/-- C5, claim as stated, is false: the checksum in the bucket index is
applied to the raw key, not to the serialized representation
`repr(key)` used by `__hash_item` when building the leaf digest.  For
key byte `97` at depth `1` the two computations disagree. -/
theorem C5_counterexample :
    positionMask [97] 1 ≠ (crc32 (pyRepr [97]) % 2 ^ 32) % 2 ^ 1 := by decide

/-- C5 amended: the bucket index is `crc32(raw key) & 0xffffffff`
reduced modulo `2^depth`; the mask-based computation of `add`/`delete`
and the modulo-based computation of `__build_leaf_items` agree at every
depth, and at depth `0` every key maps to bucket `0`. -/
theorem C5_amended :
    (∀ (key : Bytes) (d : Nat), positionMask key d = positionMod key d) ∧
    (∀ key : Bytes, positionMask key 0 = 0) := by
  refine ⟨fun key d => positionMask_eq_positionMod key d, fun key => ?_⟩
  rw [positionMask_eq_positionMod]
  unfold positionMod
  simp [Nat.mod_one]

/-! The source computes `int(ceil(log(length, 2)))` in IEEE-754 double
precision: `math.log` first converts the dict length to the nearest
double (round to nearest, ties to even).  `getDepthForLength` above is
the exact-real idealization of that formula (the least `d` with
`2^d >= n`); the definitions below model the part of the float pipeline
that is fixed by the IEEE semantics alone — the argument conversion —
leaving the libm-dependent remainder `int(ceil(log2(.)))` abstract. -/

def binadeAux : Nat → Nat → Nat
  | 0, _ => 0
  | fuel + 1, n => if n ≤ 1 then 0 else binadeAux fuel (n / 2) + 1

/-- `floor(log2 n)` for `n ≥ 1` (fuelled by `n`, which bounds the
number of halvings). -/
def binade (n : Nat) : Nat := binadeAux n n

/-- The value of the IEEE-754 double nearest to the integer `n` (round
to nearest, ties to even): integers whose binade is at most `2^52` wide
are exact; above that the value is rounded to the lattice of doubles,
spaced `2^(e-52)` apart in the binade `[2^e, 2^(e+1))`. -/
def floatRound (n : Nat) : Nat :=
  let e := binade n
  if e ≤ 52 then n
  else
    let u := 2 ^ (e - 52)
    let q := n / u
    let r := n % u
    if 2 * r < u then q * u
    else if 2 * r > u then (q + 1) * u
    else if q % 2 = 0 then q * u else (q + 1) * u

/-- Model of `__get_depth_for_length` as the source actually computes
it: `0` for an empty dict, otherwise the length is converted to a
double and handed to the rest of the pipeline `f`, which stands for
`int(ceil(log2(.)))` on the converted value (`f` is left abstract
because its rounding behaviour depends on the platform's `libm`). -/
def getDepthForLengthPy (f : Nat → Nat) (length : Nat) : Nat :=
  if length = 0 then 0 else f (floatRound length)

/-- Counterexample to C6: the conversion of the dict length to a double
identifies `2^53 + 1` with `2^53`, so whatever the platform's `log`
does, the program returns the same depth for both sizes — the claimed
exact equalities `depth(2^53) = 53` and `depth(2^53 + 1) = 54` cannot
both hold in the program. -/
theorem C6_counterexample :
    floatRound (2 ^ 53 + 1) = floatRound (2 ^ 53)
    ∧ (∀ f : Nat → Nat,
        getDepthForLengthPy f (2 ^ 53 + 1) = getDepthForLengthPy f (2 ^ 53)
        ∧ ¬(getDepthForLengthPy f (2 ^ 53) = 53
            ∧ getDepthForLengthPy f (2 ^ 53 + 1) = 53 + 1)) := by
  have h1 : floatRound (2 ^ 53 + 1) = floatRound (2 ^ 53) := by decide
  refine ⟨h1, ?_⟩
  intro f
  have h2 : getDepthForLengthPy f (2 ^ 53 + 1)
      = getDepthForLengthPy f (2 ^ 53) := by
    unfold getDepthForLengthPy
    rw [if_neg (by decide), if_neg (by decide), h1]
  refine ⟨h2, fun hc => ?_⟩
  rw [hc.1, hc.2] at h2
  exact absurd h2 (by decide)

/-- C6 (amended): `depth(0) = 0`, and the exact-real idealization of
`int(ceil(log(n, 2)))` — the least `d` with `2^d ≥ n` — satisfies every
property the claim lists: least-depth characterization, monotonicity,
`depth(2^k) = k` for `k ≥ 1` and `depth(2^k + 1) = k + 1`.  The program
however evaluates the formula in IEEE doubles: converting the length to
a double already identifies `2^53 + 1` with `2^53`, so no choice of
`log` implementation can satisfy both exact equalities (and on common
`libm`s the computed value is wrong much earlier, e.g. `depth(2^29) =
30` with glibc); only sizes within the exactly-computed range obey the
idealization. -/
theorem C6_amended :
    (getDepthForLength 0 = 0 ∧
      (∀ n : Nat, 0 < n →
        n ≤ 2 ^ getDepthForLength n
          ∧ ∀ d : Nat, n ≤ 2 ^ d → getDepthForLength n ≤ d) ∧
      (∀ m n : Nat, m ≤ n → getDepthForLength m ≤ getDepthForLength n) ∧
      (∀ k : Nat, 1 ≤ k → getDepthForLength (2 ^ k) = k) ∧
      (∀ k : Nat, getDepthForLength (2 ^ k + 1) = k + 1))
    ∧ (∀ f : Nat → Nat,
        getDepthForLengthPy f 0 = 0
        ∧ getDepthForLengthPy f (2 ^ 53 + 1) = getDepthForLengthPy f (2 ^ 53)
        ∧ ¬((∀ k : Nat, 1 ≤ k → getDepthForLengthPy f (2 ^ k) = k)
            ∧ (∀ k : Nat, getDepthForLengthPy f (2 ^ k + 1) = k + 1))) := by
  constructor
  · refine ⟨getDepthForLength_zero, ?_, ?_, ?_, ?_⟩
    · intro n hn
      exact getDepthForLength_spec (by omega)
    · intro m n h
      exact getDepthForLength_mono h
    · intro k hk
      have h1 : (1:ℕ) ≤ 2 ^ k := Nat.one_le_two_pow
      have hle : getDepthForLength (2 ^ k) ≤ k :=
        (getDepthForLength_le_iff h1 k).mpr (le_refl _)
      have hge : k ≤ getDepthForLength (2 ^ k) := by
        by_contra hc
        have h2 : getDepthForLength (2 ^ k) ≤ k - 1 := by omega
        have := (getDepthForLength_le_iff h1 (k-1)).mp h2
        have hlt : (2:ℕ) ^ (k-1) < 2 ^ k :=
          Nat.pow_lt_pow_right (by omega) (by omega)
        omega
      omega
    · intro k
      have h1 : (1:ℕ) ≤ 2 ^ k + 1 := Nat.succ_le_succ (Nat.zero_le _)
      have h2k : (2:ℕ) ^ (k+1) = 2 * 2 ^ k := by ring
      have hp : (1:ℕ) ≤ 2 ^ k := Nat.one_le_two_pow
      have hle : getDepthForLength (2 ^ k + 1) ≤ k + 1 :=
        (getDepthForLength_le_iff h1 (k+1)).mpr (by omega)
      have hge : k + 1 ≤ getDepthForLength (2 ^ k + 1) := by
        by_contra hc
        have h2 : getDepthForLength (2 ^ k + 1) ≤ k := by omega
        have := (getDepthForLength_le_iff h1 k).mp h2
        omega
      omega
  · intro f
    have hfr : floatRound (2 ^ 53 + 1) = floatRound (2 ^ 53) := by decide
    have hcoll : getDepthForLengthPy f (2 ^ 53 + 1)
        = getDepthForLengthPy f (2 ^ 53) := by
      unfold getDepthForLengthPy
      rw [if_neg (by decide), if_neg (by decide), hfr]
    refine ⟨rfl, hcoll, fun hc => ?_⟩
    have h1 := hc.1 53 (by decide)
    have h2 := hc.2 53
    rw [h1, h2] at hcoll
    exact absurd hcoll (by decide)

/-- Witness for the amended C6 at concrete inputs, both for the exact
idealization and for the float-conversion collapse. -/
theorem C6_amended_witness :
    3 ≤ 2 ^ getDepthForLength 3 ∧ getDepthForLength 3 ≤ 2 ∧
    getDepthForLength 2 ≤ getDepthForLength 5 ∧
    getDepthForLength (2 ^ 4) = 4 ∧ getDepthForLength (2 ^ 4 + 1) = 5 ∧
    getDepthForLengthPy binade (2 ^ 53 + 1) = getDepthForLengthPy binade (2 ^ 53) :=
  ⟨(C6_amended.1.2.1 3 (by decide)).1,
   (C6_amended.1.2.1 3 (by decide)).2 2 (by decide),
   C6_amended.1.2.2.1 2 5 (by decide),
   C6_amended.1.2.2.2.1 4 (by decide),
   C6_amended.1.2.2.2.2 4,
   (C6_amended.2 binade).2.1⟩

/-- C9: for a freshly constructed container of size 0, `get_hash`
returns the digest of the empty byte sequence under the configured
primitive: the depth-0 tree has a single empty bucket whose digest is
the root. -/
theorem C9_empty_digest (H : Bytes → Bytes) (W : Nat) :
    getHash (initHD H W) = some (H []) := rfl

/-- C1 is a code bug: overwriting key `[107]` (holding value `[1]`)
with value `[2]` leaves the old leaf digest in the warm tree's bucket
(count 1) next to the new digest, because `__setitem__` overwrites
`__key_to_hash[key]` before reading it and therefore deletes the *new*
digest instead of the old one. -/
theorem C1_overwrite_leaves_old_digest :
    ((runOps tagHash (initHD tagHash 3)
        [.set [107] [1], .set [107] [2]]).trees.lookup 0).map
      (fun t => ((bucketAt t 0).count (hashItem tagHash [107] [1]),
                 (bucketAt t 0).count (hashItem tagHash [107] [2])))
      = some (1, 1) := by decide

/-- C3, claim as stated, is false: with two occurrences of the leaf
digest `[0]` in the bucket, `delete` leaves zero occurrences, not
`n - 1 = 1`. -/
theorem C3_counterexample :
    (bucketAt (treeInit tagHash [([97], [0]), ([98], [0])] 0) 0).count [0] = 2 ∧
    (bucketAt (treeDelete tagHash
        (treeInit tagHash [([97], [0]), ([98], [0])] 0) [97] [0]) 0).count [0]
      = 0 := by decide

/-- C3 amended: `HashTree.delete` removes **all** occurrences of the
given leaf digest from the key's bucket (the reference behaviour noted
as an open question in the spec); entries with a different digest value
keep their multiplicity, and all other buckets are untouched. -/
theorem C3_amended (H : Bytes → Bytes) (t : HashTree) (k h : Bytes)
    (hlen : t.leafHashes.length = 2 ^ t.depth) :
    (bucketAt (treeDelete H t k h) (positionMask k t.depth)).count h = 0 ∧
    (∀ h' : Bytes, h' ≠ h →
      (bucketAt (treeDelete H t k h) (positionMask k t.depth)).count h'
        = (bucketAt t (positionMask k t.depth)).count h') ∧
    (∀ i : Nat, i ≠ positionMask k t.depth →
      bucketAt (treeDelete H t k h) i = bucketAt t i) := by
  have hpos : positionMask k t.depth < t.leafHashes.length := by
    rw [hlen]; exact positionMask_lt k t.depth
  have hbucket : bucketAt (treeDelete H t k h) (positionMask k t.depth)
      = sortBytes (removeAll h (t.leafHashes.getD (positionMask k t.depth) [])) := by
    unfold bucketAt
    rw [treeDelete_leafHashes H t k h hlen, getD_set_self hpos]
  refine ⟨?_, ?_, ?_⟩
  · rw [hbucket, count_sortBytes]
    exact count_removeAll_self h _
  · intro h' hne
    rw [hbucket, count_sortBytes]
    exact count_removeAll_ne hne _
  · intro i hi
    unfold bucketAt
    rw [treeDelete_leafHashes H t k h hlen, getD_set_ne (fun hc => hi hc.symm)]

/-- Witness for C3 amended at an explicit tree. -/
theorem C3_amended_witness :
    (bucketAt (treeDelete tagHash
        (treeInit tagHash [([97], [0]), ([98], [7])] 0) [97] [0])
        (positionMask [97] 0)).count [0] = 0 ∧
    (bucketAt (treeDelete tagHash
        (treeInit tagHash [([97], [0]), ([98], [7])] 0) [97] [0])
        (positionMask [97] 0)).count [7]
      = (bucketAt (treeInit tagHash [([97], [0]), ([98], [7])] 0)
          (positionMask [97] 0)).count [7] ∧
    bucketAt (treeDelete tagHash
        (treeInit tagHash [([97], [0]), ([98], [7])] 0) [97] [0]) 1
      = bucketAt (treeInit tagHash [([97], [0]), ([98], [7])] 0) 1 :=
  ⟨(C3_amended tagHash _ [97] [0] (by decide)).1,
   (C3_amended tagHash _ [97] [0] (by decide)).2.1 [7] (by decide),
   (C3_amended tagHash _ [97] [0] (by decide)).2.2 1 (by decide)⟩

/-- C4, claim as stated, is false: deleting a leaf digest that is
absent from the bucket does not raise any error; the call returns the
tree unchanged (the while loop is a no-op). -/
theorem C4_counterexample :
    treeDelete tagHash (treeInit tagHash [] 0) [107] [9]
      = treeInit tagHash [] 0 := by decide

/-- C4 amended: when the digest is absent from the key's bucket,
`delete` silently succeeds — the source defines no
`InconsistentStateError` — leaving every bucket's multiset unchanged
(the key's bucket is merely re-sorted), so it indeed never removes an
entry other than an occurrence of the digest. -/
theorem treeDelete_count_not_mem (H : Bytes → Bytes) (t : HashTree)
    (k h : Bytes) (hlen : t.leafHashes.length = 2 ^ t.depth)
    (habs : h ∉ bucketAt t (positionMask k t.depth)) (h' : Bytes) :
    (bucketAt (treeDelete H t k h) (positionMask k t.depth)).count h'
      = (bucketAt t (positionMask k t.depth)).count h' := by
  have hpos : positionMask k t.depth < t.leafHashes.length := by
    rw [hlen]; exact positionMask_lt k t.depth
  have habs2 : h ∉ t.leafHashes.getD (positionMask k t.depth) [] := habs
  unfold bucketAt
  rw [treeDelete_leafHashes H t k h hlen, getD_set_self hpos,
    removeAll_of_not_mem habs2]
  exact count_sortBytes _ h'

theorem treeDelete_bucket_other (H : Bytes → Bytes) (t : HashTree)
    (k h : Bytes) (hlen : t.leafHashes.length = 2 ^ t.depth) (i : Nat)
    (hi : i ≠ positionMask k t.depth) :
    bucketAt (treeDelete H t k h) i = bucketAt t i := by
  unfold bucketAt
  rw [treeDelete_leafHashes H t k h hlen, getD_set_ne (fun hc => hi hc.symm)]

theorem C4_amended (H : Bytes → Bytes) (t : HashTree) (k h : Bytes)
    (hlen : t.leafHashes.length = 2 ^ t.depth)
    (habs : h ∉ bucketAt t (positionMask k t.depth)) :
    ∀ (i : Nat) (h' : Bytes),
      (bucketAt (treeDelete H t k h) i).count h' = (bucketAt t i).count h' := by
  intro i h'
  by_cases hi : i = positionMask k t.depth
  · rw [hi]
    exact treeDelete_count_not_mem H t k h hlen habs h'
  · rw [treeDelete_bucket_other H t k h hlen i hi]

/-- Witness for C4 amended at an explicit tree. -/
theorem C4_amended_witness :
    ([9] ∉ bucketAt (treeInit tagHash [([97], [5])] 0) (positionMask [98] 0)) ∧
    (bucketAt (treeDelete tagHash (treeInit tagHash [([97], [5])] 0) [98] [9])
        0).count [5]
      = (bucketAt (treeInit tagHash [([97], [5])] 0) 0).count [5] :=
  ⟨by decide,
   C4_amended tagHash _ [98] [9] (by decide) (by decide) 0 [5]⟩

/-! ## Keys of arbitrary Python type (claim C10)

`HashTree.add`, `HashTree.delete` and `HashTree.__build_leaf_items`
apply `zlib.crc32` to the raw key object.  In Python 2, `crc32` accepts
only byte strings (and buffers); an integer or tuple key raises
`TypeError`.  We model Python objects and the runtime type check of
`crc32`; the fallible operations return `Except`. -/

/-- A Python object usable as a dictionary key: a byte string, an
integer, or a tuple. -/
inductive PyObj where
  | pstr (s : Bytes)
  | pint (n : Int)
  | ptuple (items : List PyObj)

/-- The runtime error raised by `zlib.crc32` on a non-string argument. -/
inductive PyError where
  | typeError
deriving DecidableEq

/-- Model of `zlib.crc32` applied to an arbitrary object: byte strings
are hashed, anything else raises `TypeError`. -/
def crc32Py : PyObj → Except PyError Nat
  | .pstr s => .ok (crc32 s)
  | .pint _ => .error .typeError
  | .ptuple _ => .error .typeError

/-- Model of `HashTree.add` with an arbitrary Python key: the crc of
the key is computed first and its `TypeError` propagates. -/
def treeAddPy (H : Bytes → Bytes) (t : HashTree) (key : PyObj)
    (hashValue : Bytes) : Except PyError HashTree :=
  match crc32Py key with
  | .error e => .error e
  | .ok c =>
    let position := landAux 32 (c % 2 ^ 32) (2 ^ t.depth - 1)
    .ok (rehash H
      { t with leafHashes :=
          t.leafHashes.set position (t.leafHashes.getD position [] ++ [hashValue]) }
      position)

/-- Model of `HashTree.delete` with an arbitrary Python key. -/
def treeDeletePy (H : Bytes → Bytes) (t : HashTree) (key : PyObj)
    (hashValue : Bytes) : Except PyError HashTree :=
  match crc32Py key with
  | .error e => .error e
  | .ok c =>
    let position := landAux 32 (c % 2 ^ 32) (2 ^ t.depth - 1)
    let bucket := removeAll hashValue (t.leafHashes.getD position [])
    .ok (rehash H
      { t with leafHashes := t.leafHashes.set position bucket }
      position)

/-- C10: mutating with a non-byte-string key (an integer or a tuple)
raises `TypeError`, because bucket assignment applies the CRC-32
checksum to the raw key object; byte-string keys always succeed and
behave as the byte-string operations. -/
theorem C10_nonstring_key_type_error (H : Bytes → Bytes) (t : HashTree)
    (hv : Bytes) :
    (∀ n : Int, treeAddPy H t (.pint n) hv = .error .typeError ∧
      treeDeletePy H t (.pint n) hv = .error .typeError) ∧
    (∀ items : List PyObj, treeAddPy H t (.ptuple items) hv = .error .typeError ∧
      treeDeletePy H t (.ptuple items) hv = .error .typeError) ∧
    (∀ s : Bytes, treeAddPy H t (.pstr s) hv = .ok (treeAdd H t s hv) ∧
      treeDeletePy H t (.pstr s) hv = .ok (treeDelete H t s hv)) :=
  ⟨fun _ => ⟨rfl, rfl⟩, fun _ => ⟨rfl, rfl⟩, fun _ => ⟨rfl, rfl⟩⟩

/-! ## Row consistency and correctness of the incremental rehash

`consAt H rows i p` is the internal-node equation of `__rehash_parent`:
the entry at row `i`, position `p` is the digest of its two children at
row `i+1`, positions `p` and `p + 2^i`.  A finished tree satisfies every
such equation and its bucket-digest row matches its buckets
(`rowsOk`). -/

/-- Shape of a well-formed tree: `2^depth` buckets, `depth+1` rows, row
`i` of length `2^i`. -/
def wfShape (t : HashTree) : Prop :=
  t.leafHashes.length = 2 ^ t.depth ∧ t.rows.length = t.depth + 1 ∧
  ∀ i, i ≤ t.depth → (t.rows.getD i []).length = 2 ^ i

/-- The internal-node equation at row `i`, position `p`. -/
def consAt (H : Bytes → Bytes) (rows : List (List Bytes)) (i p : Nat) : Prop :=
  (rows.getD i []).getD p []
    = H ((rows.getD (i+1) []).getD p [] ++ (rows.getD (i+1) []).getD (p + 2 ^ i) [])

/-- Full digest consistency: the bucket-digest row matches the buckets
and every internal node matches its children. -/
def rowsOk (H : Bytes → Bytes) (t : HashTree) : Prop :=
  t.rows.getD t.depth [] = t.leafHashes.map (hashLeaf H) ∧
  ∀ i p, i < t.depth → p < 2 ^ i → consAt H t.rows i p

theorem pow_mod_mod (pos r : Nat) : pos % 2 ^ (r + 1) % 2 ^ r = pos % 2 ^ r :=
  Nat.mod_mod_of_dvd pos (pow_dvd_pow 2 (Nat.le_succ r))

/-- Specification of the ancestor-chain loop: starting from rows whose
internal equations all hold except possibly at the parent of the
changed position in row `rowNr - 1`, the loop restores every equation,
preserves the shape, and leaves the bucket-digest row untouched. -/
theorem rehashChain_spec (H : Bytes → Bytes) (depth pos : Nat) :
    ∀ (rowNr : Nat) (rows : List (List Bytes)),
      rowNr ≤ depth → pos < 2 ^ depth →
      rows.length = depth + 1 →
      (∀ j, j ≤ depth → (rows.getD j []).length = 2 ^ j) →
      (∀ i p, i < depth → p < 2 ^ i → ¬(i + 1 = rowNr ∧ p = pos % 2 ^ i) →
        consAt H rows i p) →
      (rehashChain H rows rowNr (pos % 2 ^ rowNr)).length = depth + 1 ∧
      (∀ j, j ≤ depth →
        ((rehashChain H rows rowNr (pos % 2 ^ rowNr)).getD j []).length = 2 ^ j) ∧
      (rehashChain H rows rowNr (pos % 2 ^ rowNr)).getD depth [] = rows.getD depth [] ∧
      (∀ i p, i < depth → p < 2 ^ i →
        consAt H (rehashChain H rows rowNr (pos % 2 ^ rowNr)) i p) := by
  intro rowNr
  induction rowNr with
  | zero =>
    intro rows _ _ hlen hrows hcons
    refine ⟨hlen, hrows, rfl, ?_⟩
    intro i p hi hp
    exact hcons i p hi hp (by omega)
  | succ r ih =>
    intro rows hle hpos hlen hrows hcons
    have hrd : r < depth := by omega
    have hrlen : r < rows.length := by omega
    have hlc : pos % 2 ^ (r + 1) % 2 ^ r = pos % 2 ^ r := pow_mod_mod pos r
    have hlclt : pos % 2 ^ r < 2 ^ r := Nat.mod_lt _ (by positivity)
    have hstep : rehashChain H rows (r+1) (pos % 2 ^ (r+1))
        = rehashChain H
            (rows.set r ((rows.getD r []).set (pos % 2 ^ r)
              (H ((rows.getD (r+1) []).getD (pos % 2 ^ r) []
                  ++ (rows.getD (r+1) []).getD (pos % 2 ^ r + 2 ^ r) []))))
            r (pos % 2 ^ r) := by
      simp only [rehashChain]
      rw [hlc]
    rw [hstep]
    have hlen2 : (rows.set r ((rows.getD r []).set (pos % 2 ^ r)
        (H ((rows.getD (r+1) []).getD (pos % 2 ^ r) []
            ++ (rows.getD (r+1) []).getD (pos % 2 ^ r + 2 ^ r) [])))).length
        = depth + 1 := by
      rw [List.length_set]; exact hlen
    have hget2 : ∀ j : Nat, j ≠ r →
        (rows.set r ((rows.getD r []).set (pos % 2 ^ r)
          (H ((rows.getD (r+1) []).getD (pos % 2 ^ r) []
              ++ (rows.getD (r+1) []).getD (pos % 2 ^ r + 2 ^ r) [])))).getD j []
        = rows.getD j [] := by
      intro j hj
      exact getD_set_ne (fun hc => hj hc.symm)
    have hgetr : (rows.set r ((rows.getD r []).set (pos % 2 ^ r)
          (H ((rows.getD (r+1) []).getD (pos % 2 ^ r) []
              ++ (rows.getD (r+1) []).getD (pos % 2 ^ r + 2 ^ r) [])))).getD r []
        = (rows.getD r []).set (pos % 2 ^ r)
            (H ((rows.getD (r+1) []).getD (pos % 2 ^ r) []
                ++ (rows.getD (r+1) []).getD (pos % 2 ^ r + 2 ^ r) [])) :=
      getD_set_self hrlen
    have hrows2 : ∀ j, j ≤ depth →
        ((rows.set r ((rows.getD r []).set (pos % 2 ^ r)
          (H ((rows.getD (r+1) []).getD (pos % 2 ^ r) []
              ++ (rows.getD (r+1) []).getD (pos % 2 ^ r + 2 ^ r) [])))).getD j []).length
        = 2 ^ j := by
      intro j hj
      by_cases hjr : j = r
      · subst hjr
        rw [hgetr, List.length_set]
        exact hrows j hj
      · rw [hget2 j hjr]
        exact hrows j hj
    have hcons2 : ∀ i p, i < depth → p < 2 ^ i → ¬(i + 1 = r ∧ p = pos % 2 ^ i) →
        consAt H (rows.set r ((rows.getD r []).set (pos % 2 ^ r)
          (H ((rows.getD (r+1) []).getD (pos % 2 ^ r) []
              ++ (rows.getD (r+1) []).getD (pos % 2 ^ r + 2 ^ r) [])))) i p := by
      intro i p hi hp hex
      by_cases hir : i = r
      · by_cases hplc : p = pos % 2 ^ r
        · unfold consAt
          rw [hir, hplc, hgetr, hget2 (r+1) (by omega),
            getD_set_self (by rw [hrows r (by omega)]; exact hlclt)]
        · have h0 := hcons i p hi hp
            (fun hc => hplc (by rw [hir] at hc; exact hc.2))
          unfold consAt at h0 ⊢
          rw [hir] at h0 ⊢
          rw [hgetr, hget2 (r+1) (by omega),
            getD_set_ne (fun hc => hplc hc.symm)]
          exact h0
      · by_cases hir1 : i + 1 = r
        · have hpne : p ≠ pos % 2 ^ i := fun hc => hex ⟨hir1, hc⟩
          have hmod : pos % 2 ^ r % 2 ^ i = pos % 2 ^ i := by
            rw [show r = i + 1 from hir1.symm]
            exact pow_mod_mod pos i
          have hne1 : p ≠ pos % 2 ^ r := by
            intro hc
            apply hpne
            have h1 : pos % 2 ^ r < 2 ^ i := hc ▸ hp
            exact hc.trans ((Nat.mod_eq_of_lt h1).symm.trans hmod)
          have hne2 : p + 2 ^ i ≠ pos % 2 ^ r := by
            intro hc
            apply hpne
            have h1 : pos % 2 ^ r % 2 ^ i = p := by
              rw [← hc, Nat.add_mod_right, Nat.mod_eq_of_lt hp]
            exact h1.symm.trans hmod
          unfold consAt
          rw [hget2 i hir, show i + 1 = r from hir1, hgetr,
            getD_set_ne (fun hc => hne1 hc.symm),
            getD_set_ne (fun hc => hne2 hc.symm)]
          have := hcons i p hi hp (fun hc => by omega)
          unfold consAt at this
          rw [show i + 1 = r from hir1] at this
          exact this
        · unfold consAt
          rw [hget2 i hir, hget2 (i+1) hir1]
          exact hcons i p hi hp (fun hc => by omega)
    have := ih (rows.set r ((rows.getD r []).set (pos % 2 ^ r)
          (H ((rows.getD (r+1) []).getD (pos % 2 ^ r) []
              ++ (rows.getD (r+1) []).getD (pos % 2 ^ r + 2 ^ r) []))))
        (by omega) hpos hlen2 hrows2 hcons2
    refine ⟨this.1, this.2.1, ?_, this.2.2.2⟩
    rw [this.2.2.1]
    exact hget2 depth (by omega)

/-- Correctness of `__rehash` after a bucket change: starting from a
consistent tree whose bucket at `pos` was replaced, the rehash restores
full consistency, preserves the shape and depth, and stores the sorted
new bucket. -/
theorem rehash_spec (H : Bytes → Bytes) (t : HashTree) (pos : Nat)
    (newBucket : List Bytes) (hwf : wfShape t) (hok : rowsOk H t)
    (hpos : pos < 2 ^ t.depth) :
    wfShape (rehash H { t with leafHashes := t.leafHashes.set pos newBucket } pos) ∧
    rowsOk H (rehash H { t with leafHashes := t.leafHashes.set pos newBucket } pos) ∧
    (rehash H { t with leafHashes := t.leafHashes.set pos newBucket } pos).depth
      = t.depth ∧
    (rehash H { t with leafHashes := t.leafHashes.set pos newBucket } pos).leafHashes
      = t.leafHashes.set pos (sortBytes newBucket) := by
  obtain ⟨hlenL, hlenR, hrowlen⟩ := hwf
  obtain ⟨hleaf, hcons⟩ := hok
  have hposL : pos < t.leafHashes.length := by rw [hlenL]; exact hpos
  have hget : (t.leafHashes.set pos newBucket).getD pos [] = newBucket :=
    getD_set_self hposL
  have hLH : (rehash H { t with leafHashes := t.leafHashes.set pos newBucket }
        pos).leafHashes
      = t.leafHashes.set pos (sortBytes newBucket) := by
    show (t.leafHashes.set pos newBucket).set pos
        (sortBytes ((t.leafHashes.set pos newBucket).getD pos [])) = _
    rw [hget, List.set_set]
  have hdlen : t.depth < t.rows.length := by omega
  have hrows_def : (rehash H { t with leafHashes := t.leafHashes.set pos newBucket }
        pos).rows
      = rehashChain H
          (t.rows.set t.depth
            ((t.rows.getD t.depth []).set pos (hashLeaf H newBucket)))
          t.depth pos := by
    show rehashChain H
        (t.rows.set t.depth ((t.rows.getD t.depth []).set pos
          (hashLeaf H ((t.leafHashes.set pos newBucket).getD pos [])))) t.depth pos
      = _
    rw [hget]
  have hR0get : ∀ j : Nat, j ≠ t.depth →
      (t.rows.set t.depth
        ((t.rows.getD t.depth []).set pos (hashLeaf H newBucket))).getD j []
      = t.rows.getD j [] := fun j hj => getD_set_ne (fun hc => hj hc.symm)
  have hR0getd : (t.rows.set t.depth
        ((t.rows.getD t.depth []).set pos (hashLeaf H newBucket))).getD t.depth []
      = (t.rows.getD t.depth []).set pos (hashLeaf H newBucket) :=
    getD_set_self hdlen
  have hchain := rehashChain_spec H t.depth pos t.depth
      (t.rows.set t.depth ((t.rows.getD t.depth []).set pos (hashLeaf H newBucket)))
      (le_refl _) hpos
      (by rw [List.length_set]; exact hlenR)
      (by
        intro j hj
        by_cases hjd : j = t.depth
        · rw [hjd, hR0getd, List.length_set]
          exact hrowlen t.depth (le_refl _)
        · rw [hR0get j hjd]
          exact hrowlen j hj)
      (by
        intro i p hi hp hex
        by_cases hid : i + 1 = t.depth
        · have hpne : p ≠ pos % 2 ^ i := fun hc => hex ⟨hid, hc⟩
          have hne1 : p ≠ pos := by
            intro hc
            apply hpne
            have hplt : pos < 2 ^ i := hc ▸ hp
            rw [hc, Nat.mod_eq_of_lt hplt]
          have hne2 : p + 2 ^ i ≠ pos := by
            intro hc
            apply hpne
            have h1 : pos % 2 ^ (i+1) = pos := Nat.mod_eq_of_lt (hid ▸ hpos)
            have h2 : pos % 2 ^ i = p := by
              rw [← h1, pow_mod_mod pos i, ← hc, Nat.add_mod_right,
                Nat.mod_eq_of_lt hp]
            exact h2.symm
          unfold consAt
          rw [hR0get i (by omega), hid, hR0getd,
            getD_set_ne (fun hc => hne1 hc.symm),
            getD_set_ne (fun hc => hne2 hc.symm)]
          have h0 := hcons i p hi hp
          unfold consAt at h0
          rw [hid] at h0
          exact h0
        · unfold consAt
          rw [hR0get i (by omega), hR0get (i+1) hid]
          exact hcons i p hi hp)
  rw [Nat.mod_eq_of_lt hpos] at hchain
  rw [← hrows_def] at hchain
  obtain ⟨hc1, hc2, hc3, hc4⟩ := hchain
  have hdep : (rehash H { t with leafHashes := t.leafHashes.set pos newBucket }
      pos).depth = t.depth := rfl
  refine ⟨⟨?_, ?_, ?_⟩, ⟨?_, ?_⟩, hdep, hLH⟩
  · rw [hLH, List.length_set, hdep]
    exact hlenL
  · rw [hdep]
    exact hc1
  · intro i hi
    rw [hdep] at hi
    exact hc2 i hi
  · rw [hdep, hc3, hR0getd, hLH, List.map_set, hashLeaf_sortBytes, hleaf]
  · intro i p hi hp
    rw [hdep] at hi
    exact hc4 i p hi hp

/-- Correctness of `HashTree.add`: shape, depth and consistency are
preserved, and the key's bucket gains the new digest (stored sorted). -/
theorem treeAdd_spec (H : Bytes → Bytes) (t : HashTree) (k h : Bytes)
    (hwf : wfShape t) (hok : rowsOk H t) :
    wfShape (treeAdd H t k h) ∧ rowsOk H (treeAdd H t k h) ∧
    (treeAdd H t k h).depth = t.depth ∧
    (treeAdd H t k h).leafHashes
      = t.leafHashes.set (positionMask k t.depth)
          (sortBytes (t.leafHashes.getD (positionMask k t.depth) [] ++ [h])) :=
  rehash_spec H t (positionMask k t.depth)
    (t.leafHashes.getD (positionMask k t.depth) [] ++ [h]) hwf hok
    (positionMask_lt k t.depth)

/-- Correctness of `HashTree.delete`: shape, depth and consistency are
preserved, and every occurrence of the digest leaves the key's bucket
(stored sorted). -/
theorem treeDelete_spec (H : Bytes → Bytes) (t : HashTree) (k h : Bytes)
    (hwf : wfShape t) (hok : rowsOk H t) :
    wfShape (treeDelete H t k h) ∧ rowsOk H (treeDelete H t k h) ∧
    (treeDelete H t k h).depth = t.depth ∧
    (treeDelete H t k h).leafHashes
      = t.leafHashes.set (positionMask k t.depth)
          (sortBytes (removeAll h (t.leafHashes.getD (positionMask k t.depth) []))) :=
  rehash_spec H t (positionMask k t.depth)
    (removeAll h (t.leafHashes.getD (positionMask k t.depth) [])) hwf hok
    (positionMask_lt k t.depth)

/-! ## Correctness of the initial full build (`run` / `__rehash_all`) -/

theorem rehashRow_fold_spec (H : Bytes → Bytes) (depth r : Nat)
    (rows : List (List Bytes)) (hr : r + 1 ≤ depth)
    (hlen : rows.length = depth + 1)
    (hrows : ∀ j, j ≤ depth → (rows.getD j []).length = 2 ^ j) :
    ∀ m, m ≤ 2 ^ r →
      (∀ j, j ≠ r →
        ((List.range m).foldl (fun rs p => rehashParent H rs (r+1) p) rows).getD j []
          = rows.getD j []) ∧
      ((List.range m).foldl (fun rs p => rehashParent H rs (r+1) p) rows).length
        = depth + 1 ∧
      ((((List.range m).foldl (fun rs p => rehashParent H rs (r+1) p) rows).getD r
          []).length = 2 ^ r) ∧
      (∀ q, q < 2 ^ r →
        (((List.range m).foldl (fun rs p => rehashParent H rs (r+1) p) rows).getD r
            []).getD q []
          = if q < m then
              H ((rows.getD (r+1) []).getD q []
                ++ (rows.getD (r+1) []).getD (q + 2 ^ r) [])
            else (rows.getD r []).getD q []) := by
  intro m
  induction m with
  | zero =>
    intro _
    refine ⟨fun j _ => rfl, hlen, hrows r (by omega), ?_⟩
    intro q hq
    simp
  | succ m ih =>
    intro hm
    obtain ⟨ihj, ihlen, ihrlen, ihq⟩ := ih (by omega)
    have hmlt : m < 2 ^ r := by omega
    have hstep : (List.range (m+1)).foldl (fun rs p => rehashParent H rs (r+1) p) rows
        = rehashParent H
            ((List.range m).foldl (fun rs p => rehashParent H rs (r+1) p) rows)
            (r+1) m := by
      rw [List.range_succ, List.foldl_append, List.foldl_cons, List.foldl_nil]
    rw [hstep]
    have hrlenF : r <
        ((List.range m).foldl (fun rs p => rehashParent H rs (r+1) p) rows).length := by
      rw [ihlen]; omega
    have hparent : rehashParent H
          ((List.range m).foldl (fun rs p => rehashParent H rs (r+1) p) rows) (r+1) m
        = ((List.range m).foldl (fun rs p => rehashParent H rs (r+1) p) rows).set r
            ((((List.range m).foldl (fun rs p => rehashParent H rs (r+1) p) rows).getD
                r []).set m
              (H ((((List.range m).foldl (fun rs p => rehashParent H rs (r+1) p)
                      rows).getD (r+1) []).getD m []
                ++ (((List.range m).foldl (fun rs p => rehashParent H rs (r+1) p)
                      rows).getD (r+1) []).getD (m + 2 ^ r) []))) := by
      unfold rehashParent
      rw [show r + 1 - 1 = r from rfl, Nat.mod_eq_of_lt hmlt]
    rw [hparent, ihj (r+1) (by omega)]
    refine ⟨?_, ?_, ?_, ?_⟩
    · intro j hj
      rw [getD_set_ne (fun hc => hj hc.symm)]
      exact ihj j hj
    · rw [List.length_set]; exact ihlen
    · rw [getD_set_self hrlenF, List.length_set]; exact ihrlen
    · intro q hq
      rw [getD_set_self hrlenF]
      by_cases hqm : q = m
      · rw [hqm, getD_set_self (by rw [ihrlen]; exact hmlt)]
        simp
      · rw [getD_set_ne (fun hc => hqm hc.symm), ihq q hq]
        by_cases hql : q < m
        · rw [if_pos hql, if_pos (by omega)]
        · rw [if_neg hql, if_neg (by omega)]

/-- Specification of one pass of `__rehash_all`: row `rowNr - 1` is
fully recomputed from row `rowNr`; all other rows are untouched. -/
theorem rehashRow_spec (H : Bytes → Bytes) (depth r : Nat)
    (rows : List (List Bytes)) (hr : r + 1 ≤ depth)
    (hlen : rows.length = depth + 1)
    (hrows : ∀ j, j ≤ depth → (rows.getD j []).length = 2 ^ j) :
    (∀ j, j ≠ r → (rehashRow H rows (r+1)).getD j [] = rows.getD j []) ∧
    (rehashRow H rows (r+1)).length = depth + 1 ∧
    (∀ j, j ≤ depth → ((rehashRow H rows (r+1)).getD j []).length = 2 ^ j) ∧
    (∀ p, p < 2 ^ r → consAt H (rehashRow H rows (r+1)) r p) := by
  have hcount : ((rows.getD (r+1) []).length + 1) / 2 = 2 ^ r := by
    rw [hrows (r+1) hr]
    have : (2:ℕ) ^ (r+1) = 2 * 2 ^ r := by ring
    omega
  have hfold := rehashRow_fold_spec H depth r rows hr hlen hrows (2 ^ r) (le_refl _)
  have hdef : rehashRow H rows (r+1)
      = (List.range (2 ^ r)).foldl (fun rs p => rehashParent H rs (r+1) p) rows := by
    unfold rehashRow
    rw [hcount]
  rw [hdef]
  obtain ⟨hj, hlen2, hrlen2, hq⟩ := hfold
  refine ⟨hj, hlen2, ?_, ?_⟩
  · intro j hjd
    by_cases hjr : j = r
    · rw [hjr]; exact hrlen2
    · rw [hj j hjr]; exact hrows j hjd
  · intro p hp
    unfold consAt
    rw [hj (r+1) (by omega), hq p hp, if_pos hp]

/-- Specification of the outer loop of `__rehash_all`: given that rows
`rowNr .. depth - 1` already satisfy their equations, all rows do
afterwards, and the bucket-digest row is untouched. -/
theorem rehashAllRows_spec (H : Bytes → Bytes) (depth : Nat) :
    ∀ (rowNr : Nat) (rows : List (List Bytes)),
      rowNr ≤ depth →
      rows.length = depth + 1 →
      (∀ j, j ≤ depth → (rows.getD j []).length = 2 ^ j) →
      (∀ i p, rowNr ≤ i → i < depth → p < 2 ^ i → consAt H rows i p) →
      (rehashAllRows H rows rowNr).length = depth + 1 ∧
      (∀ j, j ≤ depth → ((rehashAllRows H rows rowNr).getD j []).length = 2 ^ j) ∧
      (rehashAllRows H rows rowNr).getD depth [] = rows.getD depth [] ∧
      (∀ i p, i < depth → p < 2 ^ i → consAt H (rehashAllRows H rows rowNr) i p) := by
  intro rowNr
  induction rowNr with
  | zero =>
    intro rows _ hlen hrows hcons
    exact ⟨hlen, hrows, rfl, fun i p hi hp => hcons i p (by omega) hi hp⟩
  | succ r ih =>
    intro rows hle hlen hrows hcons
    obtain ⟨hj, hlen2, hrows2, hrp⟩ := rehashRow_spec H depth r rows hle hlen hrows
    have hstep : rehashAllRows H rows (r+1)
        = rehashAllRows H (rehashRow H rows (r+1)) r := rfl
    rw [hstep]
    have hcons2 : ∀ i p, r ≤ i → i < depth → p < 2 ^ i →
        consAt H (rehashRow H rows (r+1)) i p := by
      intro i p hri hi hp
      by_cases hir : i = r
      · rw [hir]
        exact hrp p (hir ▸ hp)
      · have h1 : i ≠ r := hir
        have h2 : i + 1 ≠ r := by omega
        unfold consAt
        rw [hj i h1, hj (i+1) h2]
        exact hcons i p (by omega) hi hp
    obtain ⟨ha, hb, hc, hd⟩ := ih (rehashRow H rows (r+1)) (by omega) hlen2 hrows2 hcons2
    refine ⟨ha, hb, ?_, hd⟩
    rw [hc]
    exact hj depth (by omega)

theorem buildTree_length (depth : Nat) : (buildTree depth).length = depth + 1 := by
  unfold buildTree
  rw [List.length_map, List.length_range]

theorem buildTree_getD (depth j : Nat) (hj : j ≤ depth) :
    (buildTree depth).getD j [] = List.replicate (2 ^ j) [] := by
  unfold buildTree
  have hlt : j < ((List.range (depth+1)).map
      (fun i => List.replicate (2 ^ i) ([] : Bytes))).length := by
    rw [List.length_map, List.length_range]; omega
  rw [getD_eq_getElem hlt]
  simp

theorem buildFold_length (depth : Nat) :
    ∀ (m : List (Bytes × Bytes)) (acc : List (List Bytes)),
      (m.foldl (buildLeafStep depth) acc).length = acc.length := by
  intro m
  induction m with
  | nil => intro acc; rfl
  | cons kv rest ih =>
    intro acc
    rw [List.foldl_cons, ih]
    unfold buildLeafStep
    rw [List.length_set]

theorem buildFold_getD (depth : Nat) :
    ∀ (m : List (Bytes × Bytes)) (acc : List (List Bytes)) (i : Nat),
      i < acc.length →
      (m.foldl (buildLeafStep depth) acc).getD i []
        = acc.getD i []
          ++ (m.filter (fun kv => positionMod kv.1 depth == i)).map Prod.snd := by
  intro m
  induction m with
  | nil => intro acc i _; simp
  | cons kv rest ih =>
    intro acc i hi
    rw [List.foldl_cons]
    have hlen : i < (buildLeafStep depth acc kv).length := by
      unfold buildLeafStep
      rw [List.length_set]; exact hi
    rw [ih _ i hlen, List.filter_cons]
    by_cases hp : positionMod kv.1 depth = i
    · have hbeq : (positionMod kv.1 depth == i) = true := by
        simp [hp]
      rw [if_pos hbeq]
      have hstep : (buildLeafStep depth acc kv).getD i []
          = acc.getD i [] ++ [kv.2] := by
        unfold buildLeafStep
        rw [hp]
        exact getD_set_self hi
      rw [hstep, List.map_cons, List.append_assoc]
      rfl
    · have hbeq : ¬((positionMod kv.1 depth == i) = true) := by
        simp [hp]
      rw [if_neg hbeq]
      have hstep : (buildLeafStep depth acc kv).getD i [] = acc.getD i [] := by
        unfold buildLeafStep
        exact getD_set_ne hp
      rw [hstep]

theorem getD_replicate_nil (n i : Nat) :
    (List.replicate n ([] : List Bytes)).getD i [] = [] := by
  rw [List.getD_eq_getElem?_getD]
  rcases h : (List.replicate n ([] : List Bytes))[i]? with _ | v
  · rfl
  · have hm := List.getElem?_mem h
    rw [List.eq_of_mem_replicate hm]
    rfl

theorem buildLeafItems_length (m : List (Bytes × Bytes)) (depth : Nat) :
    (buildLeafItems m depth).length = 2 ^ depth := by
  unfold buildLeafItems
  rw [buildFold_length, List.length_replicate]

/-- Closed form of a bucket built by `__build_leaf_items`: the digests
of the snapshot entries assigned to it, in scan order. -/
theorem buildLeafItems_getD (m : List (Bytes × Bytes)) (depth i : Nat)
    (hi : i < 2 ^ depth) :
    (buildLeafItems m depth).getD i []
      = (m.filter (fun kv => positionMod kv.1 depth == i)).map Prod.snd := by
  unfold buildLeafItems
  rw [buildFold_getD depth m _ i (by rw [List.length_replicate]; exact hi),
    getD_replicate_nil]
  rfl

theorem map_hashLeaf_sortBytes (H : Bytes → Bytes) (l : List (List Bytes)) :
    (l.map sortBytes).map (hashLeaf H) = l.map (hashLeaf H) := by
  rw [List.map_map]
  exact List.map_congr_left (fun b _ => hashLeaf_sortBytes H b)

/-- Correctness of the initial build (`__init__` plus a joined `run`):
the finished tree has the requested depth, a well-formed shape, fully
consistent rows, and stores the (sorted) buckets of the snapshot. -/
theorem treeInit_spec (H : Bytes → Bytes) (m : List (Bytes × Bytes)) (d : Nat) :
    (treeInit H m d).depth = d ∧ wfShape (treeInit H m d) ∧
    rowsOk H (treeInit H m d) ∧
    (treeInit H m d).leafHashes = (buildLeafItems m d).map sortBytes := by
  have hd : (treeInit H m d).depth = d := rfl
  have hLH : (treeInit H m d).leafHashes = (buildLeafItems m d).map sortBytes := rfl
  have hrows_def : (treeInit H m d).rows
      = rehashAllRows H
          ((buildTree d).set d ((buildLeafItems m d).map (hashLeaf H))) d := rfl
  have hdlen : d < (buildTree d).length := by rw [buildTree_length]; omega
  have hR0d : ((buildTree d).set d ((buildLeafItems m d).map (hashLeaf H))).getD d []
      = (buildLeafItems m d).map (hashLeaf H) := getD_set_self hdlen
  have hR0len : ((buildTree d).set d ((buildLeafItems m d).map (hashLeaf H))).length
      = d + 1 := by rw [List.length_set, buildTree_length]
  have hR0rows : ∀ j, j ≤ d →
      (((buildTree d).set d ((buildLeafItems m d).map (hashLeaf H))).getD j []).length
        = 2 ^ j := by
    intro j hj
    by_cases hjd : j = d
    · rw [hjd, hR0d, List.length_map, buildLeafItems_length]
    · rw [getD_set_ne (fun hc => hjd hc.symm), buildTree_getD d j hj,
        List.length_replicate]
  obtain ⟨ha, hb, hc, hcons⟩ := rehashAllRows_spec H d d
      ((buildTree d).set d ((buildLeafItems m d).map (hashLeaf H)))
      (le_refl _) hR0len hR0rows (fun i p h1 h2 _ => by omega)
  refine ⟨hd, ⟨?_, ?_, ?_⟩, ⟨?_, ?_⟩, hLH⟩
  · rw [hLH, List.length_map, buildLeafItems_length, hd]
  · rw [hrows_def, ha, hd]
  · intro i hi
    rw [hd] at hi
    rw [hrows_def]
    exact hb i hi
  · rw [hd, hLH, hrows_def, hc, hR0d, map_hashLeaf_sortBytes]
  · intro i p hi hp
    rw [hd] at hi
    rw [hrows_def]
    exact hcons i p hi hp

/-! ## The root digest is determined by the bucket contents -/

/-- Recompute one row of node digests from the row below. -/
def upRow (H : Bytes → Bytes) (row : List Bytes) : List Bytes :=
  (List.range (row.length / 2)).map
    (fun p => H (row.getD p [] ++ row.getD (p + row.length / 2) []))

/-- The row `k` levels above a given bucket-digest row. -/
def rowsUp (H : Bytes → Bytes) (base : List Bytes) : Nat → List Bytes
  | 0 => base
  | k + 1 => upRow H (rowsUp H base k)

/-- The root digest derived bottom-up from a bucket-digest row. -/
def derivedRoot (H : Bytes → Bytes) (base : List Bytes) (depth : Nat) : Bytes :=
  (rowsUp H base depth).getD 0 []

/-- The root digest determined by a key-to-hash snapshot and a depth. -/
def rootOfMap (H : Bytes → Bytes) (m : List (Bytes × Bytes)) (d : Nat) : Bytes :=
  derivedRoot H ((buildLeafItems m d).map (hashLeaf H)) d

theorem upRow_length (H : Bytes → Bytes) (row : List Bytes) :
    (upRow H row).length = row.length / 2 := by
  unfold upRow
  rw [List.length_map, List.length_range]

theorem upRow_getD (H : Bytes → Bytes) (row : List Bytes) (p : Nat)
    (hp : p < row.length / 2) :
    (upRow H row).getD p []
      = H (row.getD p [] ++ row.getD (p + row.length / 2) []) := by
  unfold upRow
  have hlt : p < ((List.range (row.length / 2)).map
      (fun p => H (row.getD p [] ++ row.getD (p + row.length / 2) []))).length := by
    rw [List.length_map, List.length_range]; exact hp
  rw [getD_eq_getElem hlt]
  simp

theorem rowsUp_length (H : Bytes → Bytes) (base : List Bytes) (d : Nat)
    (hbase : base.length = 2 ^ d) :
    ∀ k, k ≤ d → (rowsUp H base k).length = 2 ^ (d - k) := by
  intro k
  induction k with
  | zero => intro _; simpa using hbase
  | succ j ih =>
    intro hk
    show (upRow H (rowsUp H base j)).length = 2 ^ (d - (j+1))
    rw [upRow_length, ih (by omega)]
    have h1 : d - j = (d - (j+1)) + 1 := by omega
    rw [h1]
    have : (2:ℕ) ^ ((d - (j+1)) + 1) = 2 * 2 ^ (d - (j+1)) := by ring
    omega

/-- In a consistent tree, row `depth - k` equals the row derived
bottom-up from the bucket-digest row. -/
theorem rows_determined (H : Bytes → Bytes) (t : HashTree)
    (hwf : wfShape t) (hok : rowsOk H t) :
    ∀ k, k ≤ t.depth →
      t.rows.getD (t.depth - k) [] = rowsUp H (t.leafHashes.map (hashLeaf H)) k := by
  obtain ⟨hlenL, hlenR, hrowlen⟩ := hwf
  obtain ⟨hleaf, hcons⟩ := hok
  have hbase : (t.leafHashes.map (hashLeaf H)).length = 2 ^ t.depth := by
    rw [List.length_map]; exact hlenL
  intro k
  induction k with
  | zero =>
    intro _
    simpa using hleaf
  | succ j ih =>
    intro hk
    have hIH := ih (by omega)
    have hi : t.depth - (j+1) < t.depth := by omega
    have hi1 : t.depth - (j+1) + 1 = t.depth - j := by omega
    have hlen1 : (rowsUp H (t.leafHashes.map (hashLeaf H)) j).length
        = 2 ^ (t.depth - j) := rowsUp_length H _ t.depth hbase j (by omega)
    have hhalf : (rowsUp H (t.leafHashes.map (hashLeaf H)) j).length / 2
        = 2 ^ (t.depth - (j+1)) := by
      rw [hlen1, ← hi1]
      have : (2:ℕ) ^ (t.depth - (j+1) + 1) = 2 * 2 ^ (t.depth - (j+1)) := by ring
      omega
    have hlen2 : (rowsUp H (t.leafHashes.map (hashLeaf H)) (j+1)).length
        = 2 ^ (t.depth - (j+1)) := rowsUp_length H _ t.depth hbase (j+1) hk
    have hlenrow : (t.rows.getD (t.depth - (j+1)) []).length = 2 ^ (t.depth - (j+1)) :=
      hrowlen _ (by omega)
    apply List.ext_getElem (by rw [hlenrow, hlen2])
    intro p hp1 hp2
    have hplt : p < 2 ^ (t.depth - (j+1)) := by rw [← hlenrow]; exact hp1
    have hcp := hcons (t.depth - (j+1)) p hi hplt
    unfold consAt at hcp
    rw [hi1] at hcp
    rw [← getD_eq_getElem hp1, ← getD_eq_getElem hp2, hcp]
    show _ = (upRow H (rowsUp H (t.leafHashes.map (hashLeaf H)) j)).getD p []
    rw [upRow_getD H _ p (by rw [hhalf]; exact hplt), hIH, hhalf]

/-- The root digest of a consistent tree depends only on its
bucket-digest row. -/
theorem treeGetHash_determined (H : Bytes → Bytes) (t : HashTree)
    (hwf : wfShape t) (hok : rowsOk H t) :
    treeGetHash t = derivedRoot H (t.leafHashes.map (hashLeaf H)) t.depth := by
  have h0 := rows_determined H t hwf hok t.depth (le_refl _)
  rw [show t.depth - t.depth = 0 from by omega] at h0
  unfold treeGetHash derivedRoot
  rw [h0]

/-- The root digest of a consistent tree whose buckets agree (as
multisets) with the buckets of a key-to-hash snapshot is the snapshot's
derived root. -/
theorem treeGetHash_of_map (H : Bytes → Bytes) (t : HashTree)
    (m : List (Bytes × Bytes)) (d : Nat) (hd : t.depth = d)
    (hwf : wfShape t) (hok : rowsOk H t)
    (hperm : ∀ i, i < 2 ^ d → (bucketAt t i).Perm ((buildLeafItems m d).getD i [])) :
    treeGetHash t = rootOfMap H m d := by
  rw [treeGetHash_determined H t hwf hok]
  unfold rootOfMap
  have hmap : t.leafHashes.map (hashLeaf H) = (buildLeafItems m d).map (hashLeaf H) := by
    apply List.ext_getElem
      (by rw [List.length_map, List.length_map, hwf.1, buildLeafItems_length, hd])
    intro p hp1 hp2
    have hpd : p < 2 ^ d := by
      rw [List.length_map, buildLeafItems_length] at hp2
      exact hp2
    have hpl : p < t.leafHashes.length := by
      rw [List.length_map] at hp1
      exact hp1
    have hpb : p < (buildLeafItems m d).length := by
      rw [buildLeafItems_length]
      exact hpd
    rw [List.getElem_map, List.getElem_map]
    have h1 : t.leafHashes[p] = bucketAt t p := (getD_eq_getElem hpl).symm
    have h2 : (buildLeafItems m d)[p] = (buildLeafItems m d).getD p [] :=
      (getD_eq_getElem hpb).symm
    rw [h1, h2]
    exact hashLeaf_perm H (hperm p hpd)
  rw [hmap, hd]

/-! ## Order independence within a bucket (claim C8) -/

/-- Iterated `HashTree.add` over a list of key/leaf-digest pairs. -/
def foldAdd (H : Bytes → Bytes) (t : HashTree) (l : List (Bytes × Bytes)) :
    HashTree :=
  l.foldl (fun t kv => treeAdd H t kv.1 kv.2) t

/-- Iterated adds preserve shape and consistency, and act on each
bucket by appending the digests routed to it (up to ordering, since
each rehash re-sorts the touched bucket). -/
theorem foldAdd_spec (H : Bytes → Bytes) :
    ∀ (l : List (Bytes × Bytes)) (t : HashTree),
      wfShape t → rowsOk H t →
      wfShape (foldAdd H t l) ∧ rowsOk H (foldAdd H t l) ∧
      (foldAdd H t l).depth = t.depth ∧
      ∀ i, i < 2 ^ t.depth →
        (bucketAt (foldAdd H t l) i).Perm
          (bucketAt t i
            ++ (l.filter (fun kv => positionMask kv.1 t.depth == i)).map Prod.snd) := by
  intro l
  induction l with
  | nil =>
    intro t hwf hok
    exact ⟨hwf, hok, rfl, fun i _ => by simp [foldAdd]⟩
  | cons kv rest ih =>
    intro t hwf hok
    obtain ⟨hwf1, hok1, hd1, hLH1⟩ := treeAdd_spec H t kv.1 kv.2 hwf hok
    have hstep : foldAdd H t (kv :: rest) = foldAdd H (treeAdd H t kv.1 kv.2) rest := rfl
    obtain ⟨hwf2, hok2, hd2, hbuckets⟩ := ih (treeAdd H t kv.1 kv.2) hwf1 hok1
    rw [hstep]
    refine ⟨hwf2, hok2, by rw [hd2, hd1], ?_⟩
    intro i hi
    have hi1 : i < 2 ^ (treeAdd H t kv.1 kv.2).depth := by rw [hd1]; exact hi
    have hb1 := hbuckets i hi1
    have hposlt : positionMask kv.1 t.depth < t.leafHashes.length := by
      rw [hwf.1]; exact positionMask_lt kv.1 t.depth
    have hbucket_add : (bucketAt (treeAdd H t kv.1 kv.2) i).Perm
        (bucketAt t i
          ++ (if positionMask kv.1 t.depth == i then [kv.2] else [])) := by
      unfold bucketAt
      rw [hLH1]
      by_cases hp : positionMask kv.1 t.depth = i
      · rw [← hp, getD_set_self hposlt, if_pos (by simp [hp])]
        rw [hp]
        exact (sortBytes_perm _)
      · rw [getD_set_ne hp, if_neg (by simp [hp])]
        simp
    rw [hd1] at hb1
    refine hb1.trans ?_
    refine (hbucket_add.append_right _).trans ?_
    rw [List.append_assoc, List.filter_cons]
    by_cases hp : (positionMask kv.1 t.depth == i) = true
    · rw [if_pos hp, if_pos hp, List.map_cons, List.singleton_append]
    · rw [if_neg hp, if_neg hp, List.nil_append]

instance (H : Bytes → Bytes) (rows : List (List Bytes)) (i p : Nat) :
    Decidable (consAt H rows i p) := by
  unfold consAt; infer_instance

instance (t : HashTree) : Decidable (wfShape t) := by
  unfold wfShape; infer_instance

instance (H : Bytes → Bytes) (t : HashTree) : Decidable (rowsOk H t) :=
  decidable_of_iff
    (t.rows.getD t.depth [] = t.leafHashes.map (hashLeaf H) ∧
      ∀ i, i < t.depth → ∀ p, p < 2 ^ i → consAt H t.rows i p)
    (by
      unfold rowsOk
      constructor
      · rintro ⟨h1, h2⟩
        exact ⟨h1, fun i p hi hp => h2 i hi p hp⟩
      · rintro ⟨h1, h2⟩
        exact ⟨h1, fun i hi p hp => h2 i p hi hp⟩)

/-- C8: inserting keys that all map to the same bucket, in any
permutation of insertion order, yields the same bucket digest, equal to
the digest of the sorted concatenation of the member leaf digests; an
empty bucket's digest is the digest of the empty byte sequence. -/
theorem C8_bucket_order_independence (H : Bytes → Bytes) (t : HashTree)
    (l1 l2 : List (Bytes × Bytes)) (p : Nat)
    (hwf : wfShape t) (hok : rowsOk H t)
    (hperm : l1.Perm l2) (hp : p < 2 ^ t.depth)
    (hpos : ∀ kv ∈ l1, positionMask kv.1 t.depth = p) :
    ((foldAdd H t l1).rows.getD (foldAdd H t l1).depth []).getD p []
        = ((foldAdd H t l2).rows.getD (foldAdd H t l2).depth []).getD p [] ∧
    ((foldAdd H t l1).rows.getD (foldAdd H t l1).depth []).getD p []
        = hashLeaf H (bucketAt t p ++ l1.map Prod.snd) ∧
    hashLeaf H (bucketAt t p ++ l1.map Prod.snd)
        = H (sortBytes (bucketAt t p ++ l1.map Prod.snd)).flatten ∧
    hashLeaf H [] = H [] := by
  have hdigest : ∀ (l : List (Bytes × Bytes)), (∀ kv ∈ l, positionMask kv.1 t.depth = p) →
      ((foldAdd H t l).rows.getD (foldAdd H t l).depth []).getD p []
        = hashLeaf H (bucketAt t p ++ l.map Prod.snd) := by
    intro l hl
    obtain ⟨hwf2, hok2, hd2, hbuckets⟩ := foldAdd_spec H l t hwf hok
    have hfilter : l.filter (fun kv => positionMask kv.1 t.depth == p) = l :=
      List.filter_eq_self.mpr (fun kv hkv => by simp [hl kv hkv])
    have hb := hbuckets p hp
    rw [hfilter] at hb
    have hplen : p < (foldAdd H t l).leafHashes.length := by
      rw [hwf2.1, hd2]; exact hp
    have hpmap : p < ((foldAdd H t l).leafHashes.map (hashLeaf H)).length := by
      rw [List.length_map]; exact hplen
    rw [hok2.1, getD_eq_getElem hpmap]
    rw [List.getElem_map]
    have hba : (foldAdd H t l).leafHashes[p] = bucketAt (foldAdd H t l) p :=
      (getD_eq_getElem hplen).symm
    rw [hba]
    exact hashLeaf_perm H hb
  have h1 := hdigest l1 hpos
  have h2 := hdigest l2 (fun kv hkv => hpos kv (hperm.mem_iff.mpr hkv))
  refine ⟨?_, h1, rfl, rfl⟩
  rw [h1, h2]
  exact hashLeaf_perm H ((hperm.map Prod.snd).append_left _)

/-- Witness for C8: keys `[97]` and `[98]` both map to bucket `1` at
depth `1`; inserting them in either order gives the same bucket
digest. -/
theorem C8_bucket_order_independence_witness :
    (∀ kv ∈ [(([97]:Bytes), ([3]:Bytes)), ([98], [4])],
      positionMask kv.1 (treeInit tagHash [] 1).depth = 1) ∧
    ((foldAdd tagHash (treeInit tagHash [] 1) [([97], [3]), ([98], [4])]).rows.getD
        (foldAdd tagHash (treeInit tagHash [] 1) [([97], [3]), ([98], [4])]).depth
        []).getD 1 []
      = ((foldAdd tagHash (treeInit tagHash [] 1) [([98], [4]), ([97], [3])]).rows.getD
          (foldAdd tagHash (treeInit tagHash [] 1)
            [([98], [4]), ([97], [3])]).depth []).getD 1 [] :=
  ⟨by decide,
   (C8_bucket_order_independence tagHash (treeInit tagHash [] 1)
     [([97], [3]), ([98], [4])] [([98], [4]), ([97], [3])] 1
     (by decide) (by decide) (by decide) (by decide) (by decide)).1⟩

/-! ## The cache window (claim C2) -/

theorem lookup_isSome_iff {α β : Type} [BEq α] [LawfulBEq α]
    (l : List (α × β)) (k : α) :
    (l.lookup k).isSome ↔ k ∈ l.map Prod.fst := by
  induction l with
  | nil => simp [List.lookup]
  | cons p rest ih =>
    obtain ⟨a, b⟩ := p
    by_cases hk : k = a
    · simp [List.lookup, hk]
    · have hbeq : (k == a) = false := by simp [hk]
      simp only [List.lookup, hbeq, List.map_cons, List.mem_cons]
      rw [ih]
      constructor
      · intro h; right; exact h
      · rintro (h | h)
        · exact absurd h hk
        · exact h

theorem lookup_mem {α β : Type} [BEq α] [LawfulBEq α]
    {l : List (α × β)} {k : α} {v : β} (h : l.lookup k = some v) : (k, v) ∈ l := by
  induction l with
  | nil => simp [List.lookup] at h
  | cons p rest ih =>
    obtain ⟨a, b⟩ := p
    by_cases hk : k = a
    · subst hk
      simp [List.lookup] at h
      rw [h]
      exact List.mem_cons_self _ _
    · have hbeq : (k == a) = false := by simp [hk]
      simp only [List.lookup, hbeq] at h
      exact List.mem_cons_of_mem _ (ih h)

theorem lookup_map_value_isSome {α β : Type} [BEq α] [LawfulBEq α]
    (l : List (α × β)) (f : α × β → β) (k : α) :
    (((l.map (fun p => (p.1, f p))).lookup k).isSome) = (l.lookup k).isSome := by
  have h1 : (l.map (fun p => (p.1, f p))).map Prod.fst = l.map Prod.fst := by
    rw [List.map_map]
    rfl
  by_cases h : k ∈ l.map Prod.fst
  · rw [(lookup_isSome_iff _ _).mpr (h1 ▸ h : k ∈ (l.map (fun p => (p.1, f p))).map Prod.fst)]
    rw [(lookup_isSome_iff _ _).mpr h]
  · have h2 : ¬((l.map (fun p => (p.1, f p))).lookup k).isSome := by
      rw [lookup_isSome_iff, h1]
      exact h
    have h3 : ¬(l.lookup k).isSome := by
      rw [lookup_isSome_iff]
      exact h
    simp only [Bool.not_eq_true] at h2 h3
    rw [h2, h3]

theorem mem_allowed_iff (d curr W : Nat) :
    d ∈ allowedTreeDepths curr W ↔ curr - W / 2 ≤ d ∧ d < curr - W / 2 + W := by
  unfold allowedTreeDepths
  rw [List.mem_range']
  constructor
  · rintro ⟨i, hi, hd⟩
    omega
  · intro h
    exact ⟨d - (curr - W / 2), by omega, by omega⟩

/-- After `__manage_cached_trees`, exactly the depths of the computed
window are warm. -/
theorem manage_lookup (H : Bytes → Bytes) (s : HDState) (d : Nat) :
    ((manageCachedTrees H s).trees.lookup d).isSome
      ↔ d ∈ allowedTreeDepths (getDepthForLength s.entries.length) s.cacheSize := by
  unfold manageCachedTrees
  rw [lookup_isSome_iff]
  simp only [List.map_append, List.mem_append, List.mem_map, List.mem_filter,
    List.map_map]
  constructor
  · rintro (⟨p, ⟨hp, hc⟩, hpd⟩ | ⟨x, ⟨hx, _⟩, hxd⟩)
    · rw [List.elem_iff] at hc
      rw [← hpd]
      exact hc
    · have hxd2 : x = d := hxd
      rw [← hxd2]
      exact hx
  · intro hd
    by_cases hwarm : (s.trees.lookup d).isSome
    · left
      rw [lookup_isSome_iff] at hwarm
      obtain ⟨p, hp, hpd⟩ := List.mem_map.mp hwarm
      refine ⟨p, ⟨hp, ?_⟩, hpd⟩
      rw [List.elem_iff, hpd]
      exact hd
    · right
      refine ⟨d, ⟨hd, ?_⟩, rfl⟩
      rw [Option.isNone_iff_eq_none]
      exact Option.not_isSome_iff_eq_none.mp hwarm

theorem setItem_lookup (H : Bytes → Bytes) (s : HDState) (k v : Bytes) (d : Nat) :
    ((setItem H s k v).trees.lookup d).isSome
      ↔ d ∈ allowedTreeDepths
          (getDepthForLength (assocSet s.entries k v).length) s.cacheSize := by
  unfold setItem
  exact manage_lookup H _ d

theorem delItem_lookup (H : Bytes → Bytes) (s : HDState) (k : Bytes) (d : Nat) :
    ((delItem H s k).trees.lookup d).isSome
      ↔ d ∈ allowedTreeDepths
          (getDepthForLength s.entries.length) s.cacheSize := by
  have h1 : (delItem H s k).trees
      = (manageCachedTrees H s).trees.map
          (fun p => (p.1,
            treeDelete H p.2 k
              (((manageCachedTrees H s).keyToHash.lookup k).getD []))) := rfl
  rw [h1]
  have h2 := lookup_map_value_isSome (manageCachedTrees H s).trees
      (fun p => treeDelete H p.2 k
        (((manageCachedTrees H s).keyToHash.lookup k).getD [])) d
  rw [show (fun (p : Nat × HashTree) => (p.1,
        treeDelete H p.2 k (((manageCachedTrees H s).keyToHash.lookup k).getD [])))
      = (fun (p : Nat × HashTree) => (p.1,
        (fun (q : Nat × HashTree) => treeDelete H q.2 k
          (((manageCachedTrees H s).keyToHash.lookup k).getD [])) p)) from rfl]
  rw [h2]
  exact manage_lookup H s d

theorem setItem_entries (H : Bytes → Bytes) (s : HDState) (k v : Bytes) :
    (setItem H s k v).entries = assocSet s.entries k v := rfl

theorem delItem_entries (H : Bytes → Bytes) (s : HDState) (k : Bytes) :
    (delItem H s k).entries = assocErase s.entries k := rfl

theorem runOp_cacheSize (H : Bytes → Bytes) (s : HDState) (op : DictOp) :
    (runOp H s op).cacheSize = s.cacheSize := by
  cases op <;> rfl

theorem runOps_cacheSize (H : Bytes → Bytes) :
    ∀ (ops : List DictOp) (s : HDState), (runOps H s ops).cacheSize = s.cacheSize := by
  intro ops
  induction ops with
  | nil => intro s; rfl
  | cons op rest ih =>
    intro s
    show (runOps H (runOp H s op) rest).cacheSize = s.cacheSize
    rw [ih, runOp_cacheSize]

theorem runOps_append (H : Bytes → Bytes) (s : HDState) (l1 l2 : List DictOp) :
    runOps H s (l1 ++ l2) = runOps H (runOps H s l1) l2 := by
  unfold runOps
  rw [List.foldl_append]

theorem okRun_append (H : Bytes → Bytes) :
    ∀ (l1 : List DictOp) (s : HDState) (l2 : List DictOp),
      okRun H s (l1 ++ l2) = (okRun H s l1 && okRun H (runOps H s l1) l2) := by
  intro l1
  induction l1 with
  | nil => intro s l2; rfl
  | cons op rest ih =>
    intro s l2
    show (okOp s op && okRun H (runOp H s op) (rest ++ l2)) = _
    rw [ih (runOp H s op) l2]
    rw [show okRun H s (op :: rest) = (okOp s op && okRun H (runOp H s op) rest)
      from rfl]
    rw [Bool.and_assoc]
    rfl

theorem assocErase_length {α β : Type} [DecidableEq α] (l : List (α × β)) (k : α)
    (v : β) (h : (k, v) ∈ l) : (assocErase l k).length = l.length - 1 := by
  unfold assocErase
  exact List.length_eraseP_of_mem h (by simp)

theorem depth_mem_allowed_self {curr W : Nat} (hW : 1 ≤ W) :
    curr ∈ allowedTreeDepths curr W := by
  rw [mem_allowed_iff]
  omega

theorem depth_mem_allowed_pred {n W : Nat} (hW : 2 ≤ W) :
    getDepthForLength n ∈ allowedTreeDepths (getDepthForLength (n + 1)) W := by
  rw [mem_allowed_iff]
  have h1 : getDepthForLength n ≤ getDepthForLength (n + 1) :=
    getDepthForLength_mono (Nat.le_succ n)
  have h2 : getDepthForLength (n + 1) ≤ getDepthForLength n + 1 :=
    getDepthForLength_succ_le n
  omega

/-- Counterexample to C2: with cache window `W = 1`, the valid run
`d[a] = 1; d[b] = 2; del d[b]` leaves the container at size `1`
(required depth `0`), yet `get_hash` finds no tree: `__delitem__` runs
`__manage_cached_trees` BEFORE the size shrinks, so the warm window is
computed for the pre-deletion size `2` (depth `1`) and the depth-`0`
tree needed afterwards was evicted and not rebuilt. -/
theorem C2_counterexample :
    okRun tagHash (initHD tagHash 1)
        [DictOp.set [97] [1], DictOp.set [98] [2], DictOp.del [98]] = true
    ∧ (runOps tagHash (initHD tagHash 1)
        [DictOp.set [97] [1], DictOp.set [98] [2], DictOp.del [98]]).entries.length
        = 1
    ∧ getHash (runOps tagHash (initHD tagHash 1)
        [DictOp.set [97] [1], DictOp.set [98] [2], DictOp.del [98]]) = none := by
  refine ⟨by decide, by decide, by decide⟩

/-- C2 (amended): after a settled run of valid mutations ending in `op`,
the set of depths with a warm tree equals the window
`[max(0, m - W/2), max(0, m - W/2) + W)` where `m = depth(size seen by
__manage_cached_trees)`: the FINAL size for a set, but the PRE-deletion
size (final size + 1) for a delete, because `__delitem__` manages the
cache before the size changes.  Consequently `get_hash` is guaranteed to
find a tree for the current size only for `W ≥ 2`, not `W ≥ 1` as
claimed. -/
theorem C2_amended (H : Bytes → Bytes) (W : Nat) (ops : List DictOp) (op : DictOp)
    (hok : okRun H (initHD H W) (ops ++ [op]) = true) :
    (∀ d : Nat,
      (((runOps H (initHD H W) (ops ++ [op])).trees.lookup d).isSome
        ↔ d ∈ allowedTreeDepths
            (getDepthForLength
              (match op with
               | DictOp.set _ _ =>
                   (runOps H (initHD H W) (ops ++ [op])).entries.length
               | DictOp.del _ =>
                   (runOps H (initHD H W) (ops ++ [op])).entries.length + 1))
            W))
    ∧ (2 ≤ W → (getHash (runOps H (initHD H W) (ops ++ [op]))).isSome) := by
  have hrun : runOps H (initHD H W) (ops ++ [op])
      = runOp H (runOps H (initHD H W) ops) op := by
    rw [runOps_append]
    rfl
  set s0 := runOps H (initHD H W) ops with hs0
  have hcs : s0.cacheSize = W := runOps_cacheSize H ops (initHD H W)
  rw [okRun_append H ops (initHD H W) [op]] at hok
  have hokop : okOp s0 op = true := by
    have h2 := ((Bool.and_eq_true _ _).mp hok).2
    have h3 : (okOp s0 op && true) = true := h2
    simpa using h3
  cases op with
  | set k v =>
    rw [hrun]
    constructor
    · intro d
      have h1 := setItem_lookup H s0 k v d
      rw [hcs] at h1
      exact h1
    · intro hW
      have h1 := setItem_lookup H s0 k v
        (getDepthForLength (assocSet s0.entries k v).length)
      rw [hcs] at h1
      have h3 := h1.mpr (depth_mem_allowed_self (le_trans (by decide) hW))
      obtain ⟨t, ht⟩ := Option.isSome_iff_exists.mp h3
      have hE : (runOp H s0 (DictOp.set k v)).entries = assocSet s0.entries k v :=
        rfl
      have ht2 : (runOp H s0 (DictOp.set k v)).trees.lookup
          (getDepthForLength (assocSet s0.entries k v).length) = some t := ht
      unfold getHash
      rw [hE, ht2]
      rfl
  | del k =>
    have hsome : (s0.entries.lookup k).isSome = true := hokop
    obtain ⟨v, hv⟩ := Option.isSome_iff_exists.mp hsome
    have hmem : (k, v) ∈ s0.entries := lookup_mem hv
    have hlen : (assocErase s0.entries k).length = s0.entries.length - 1 :=
      assocErase_length s0.entries k v hmem
    have hpos : 0 < s0.entries.length := List.length_pos_of_mem hmem
    have hlen2 : s0.entries.length = (assocErase s0.entries k).length + 1 := by
      omega
    rw [hrun]
    constructor
    · intro d
      have h1 := delItem_lookup H s0 k d
      rw [hcs, hlen2] at h1
      exact h1
    · intro hW
      have h1 := delItem_lookup H s0 k
        (getDepthForLength (assocErase s0.entries k).length)
      rw [hcs, hlen2] at h1
      have h3 := h1.mpr (depth_mem_allowed_pred hW)
      obtain ⟨t, ht⟩ := Option.isSome_iff_exists.mp h3
      have hE : (runOp H s0 (DictOp.del k)).entries = assocErase s0.entries k :=
        rfl
      have ht2 : (runOp H s0 (DictOp.del k)).trees.lookup
          (getDepthForLength (assocErase s0.entries k).length) = some t := ht
      unfold getHash
      rw [hE, ht2]
      rfl

/-- Witness for the amended C2: a concrete valid run with `W = 2` ending
in a delete, for which `get_hash` does find a tree. -/
theorem C2_amended_witness :
    (getHash (runOps tagHash (initHD tagHash 2)
      ([DictOp.set [97] [1]] ++ [DictOp.del [97]]))).isSome :=
  (C2_amended tagHash 2 [DictOp.set [97] [1]] (DictOp.del [97])
    (by decide)).2 (by decide)

/-! ## Association-map utilities (towards claim C7) -/

theorem lookup_isNone_iff {α β : Type} [BEq α] [LawfulBEq α]
    (l : List (α × β)) (k : α) :
    (l.lookup k).isNone = true ↔ k ∉ l.map Prod.fst := by
  rw [Option.isNone_iff_eq_none, ← Option.not_isSome_iff_eq_none]
  exact not_congr (lookup_isSome_iff l k)

theorem assocSet_of_not_mem {α β : Type} [DecidableEq α] :
    ∀ (l : List (α × β)) (k : α) (v : β), k ∉ l.map Prod.fst →
      assocSet l k v = l ++ [(k, v)] := by
  intro l
  induction l with
  | nil => intro k v _; rfl
  | cons p rest ih =>
    intro k v h
    obtain ⟨a, b⟩ := p
    rw [List.map_cons, List.mem_cons] at h
    push_neg at h
    show (if a = k then (k, v) :: rest else (a, b) :: assocSet rest k v) = _
    rw [if_neg (fun hc => h.1 hc.symm), ih k v h.2]
    rfl

theorem map_fst_assocErase {α β : Type} [DecidableEq α] :
    ∀ (l : List (α × β)) (k : α),
      (assocErase l k).map Prod.fst
        = (l.map Prod.fst).eraseP (fun a => decide (a = k)) := by
  intro l
  induction l with
  | nil => intro k; rfl
  | cons p rest ih =>
    intro k
    obtain ⟨a, b⟩ := p
    unfold assocErase at ih ⊢
    by_cases h : a = k
    · rw [List.eraseP_cons_of_pos (by simpa using h), List.map_cons,
        List.eraseP_cons_of_pos (by simpa using h)]
    · rw [List.eraseP_cons_of_neg (by simpa using h), List.map_cons,
        List.map_cons, List.eraseP_cons_of_neg (by simpa using h), ih k]

theorem lookup_decomp {α β : Type} [BEq α] [LawfulBEq α] :
    ∀ (l : List (α × β)) (k : α) (v : β), l.lookup k = some v →
      ∃ l1 l2, l = l1 ++ (k, v) :: l2 ∧ k ∉ l1.map Prod.fst := by
  intro l
  induction l with
  | nil => intro k v h; exact absurd h (by simp [List.lookup])
  | cons p rest ih =>
    intro k v h
    obtain ⟨a, b⟩ := p
    by_cases hk : k = a
    · subst hk
      rw [show List.lookup k ((k, b) :: rest) = some b from by
        simp [List.lookup]] at h
      obtain rfl := Option.some.inj h
      exact ⟨[], rest, rfl, by simp⟩
    · rw [show List.lookup k ((a, b) :: rest) = List.lookup k rest from by
        simp [List.lookup, beq_false_of_ne hk]] at h
      obtain ⟨l1, l2, hdec, hnm⟩ := ih k v h
      refine ⟨(a, b) :: l1, l2, by rw [hdec]; rfl, ?_⟩
      rw [List.map_cons, List.mem_cons]
      push_neg
      exact ⟨hk, hnm⟩

theorem assocErase_append_cons {α β : Type} [DecidableEq α]
    (l1 l2 : List (α × β)) (k : α) (v : β) (h : k ∉ l1.map Prod.fst) :
    assocErase (l1 ++ (k, v) :: l2) k = l1 ++ l2 := by
  unfold assocErase
  have hno : ∀ b ∈ l1, ¬(decide (b.1 = k)) = true := by
    intro b hb hc
    rw [decide_eq_true_eq] at hc
    exact h (hc ▸ List.mem_map_of_mem Prod.fst hb)
  rw [List.eraseP_append_right ((k, v) :: l2) hno,
    List.eraseP_cons_of_pos (by simp)]

/-! ## The container invariant (towards claim C7) -/

/-- A warm tree is correct for the key-to-digest snapshot `m` at depth
`d`: right depth, well-formed shape, consistent rows, and every bucket
holds (as a multiset) exactly the digests the snapshot routes to it. -/
def treeOk (H : Bytes → Bytes) (m : List (Bytes × Bytes)) (d : Nat)
    (t : HashTree) : Prop :=
  t.depth = d ∧ wfShape t ∧ rowsOk H t ∧
  ∀ i, i < 2 ^ d → (bucketAt t i).Perm ((buildLeafItems m d).getD i [])

/-- The container invariant: the dict and `__key_to_hash` hold the same
keys, keys are unique, the stored leaf digests are pairwise distinct,
and every warm tree is correct for the current snapshot. -/
def HDInv (H : Bytes → Bytes) (s : HDState) : Prop :=
  s.entries.map Prod.fst = s.keyToHash.map Prod.fst ∧
  (s.entries.map Prod.fst).Nodup ∧
  (s.keyToHash.map Prod.snd).Nodup ∧
  ∀ d t, (d, t) ∈ s.trees → treeOk H s.keyToHash d t

theorem manage_entries (H : Bytes → Bytes) (s : HDState) :
    (manageCachedTrees H s).entries = s.entries := rfl

theorem manage_keyToHash (H : Bytes → Bytes) (s : HDState) :
    (manageCachedTrees H s).keyToHash = s.keyToHash := rfl

theorem setItem_keyToHash (H : Bytes → Bytes) (s : HDState) (k v : Bytes) :
    (setItem H s k v).keyToHash = assocSet s.keyToHash k (hashItem H k v) := rfl

theorem delItem_keyToHash (H : Bytes → Bytes) (s : HDState) (k : Bytes) :
    (delItem H s k).keyToHash = assocErase s.keyToHash k := rfl

theorem treeInit_treeOk (H : Bytes → Bytes) (m : List (Bytes × Bytes))
    (d : Nat) : treeOk H m d (treeInit H m d) := by
  obtain ⟨hd, hwf, hok, hLH⟩ := treeInit_spec H m d
  refine ⟨hd, hwf, hok, ?_⟩
  intro i hi
  unfold bucketAt
  rw [hLH]
  have hlen : i < (buildLeafItems m d).length := by
    rw [buildLeafItems_length]; exact hi
  have hlen2 : i < ((buildLeafItems m d).map sortBytes).length := by
    rw [List.length_map]; exact hlen
  rw [getD_eq_getElem hlen2, List.getElem_map, ← getD_eq_getElem hlen]
  exact sortBytes_perm _

theorem manage_inv (H : Bytes → Bytes) (s : HDState) (h : HDInv H s) :
    HDInv H (manageCachedTrees H s) := by
  obtain ⟨h1, h2, h3, h4⟩ := h
  refine ⟨h1, h2, h3, ?_⟩
  intro d t hmem
  have hmem2 : (d, t) ∈
      s.trees.filter (fun p =>
        (allowedTreeDepths (getDepthForLength s.entries.length)
          s.cacheSize).contains p.1)
      ++ ((allowedTreeDepths (getDepthForLength s.entries.length)
            s.cacheSize).filter
          (fun d0 => (s.trees.lookup d0).isNone)).map
          (fun d0 => (d0, treeInit H s.keyToHash d0)) := hmem
  rw [List.mem_append] at hmem2
  rcases hmem2 with hm | hm
  · exact h4 d t (List.mem_of_mem_filter hm)
  · rw [List.mem_map] at hm
    obtain ⟨d0, _, heq⟩ := hm
    obtain ⟨hd0, ht0⟩ := (Prod.mk.injEq _ _ _ _).mp heq
    subst hd0
    subst ht0
    exact treeInit_treeOk H s.keyToHash d0

theorem treeAdd_treeOk (H : Bytes → Bytes) (m : List (Bytes × Bytes)) (d : Nat)
    (t : HashTree) (k h : Bytes) (ht : treeOk H m d t) :
    treeOk H (m ++ [(k, h)]) d (treeAdd H t k h) := by
  obtain ⟨hd, hwf, hok, hb⟩ := ht
  obtain ⟨hwf2, hok2, hd2, hLH⟩ := treeAdd_spec H t k h hwf hok
  refine ⟨hd2.trans hd, hwf2, hok2, ?_⟩
  intro i hi
  have hposlen : positionMask k t.depth < t.leafHashes.length := by
    rw [hwf.1]; exact positionMask_lt k t.depth
  have hpm : positionMask k t.depth = positionMod k d := by
    rw [positionMask_eq_positionMod, hd]
  rw [hpm] at hLH hposlen
  have hsingle : ∀ j : Nat,
      (List.filter (fun kv => positionMod kv.1 d == j) [(k, h)]).map Prod.snd
        = (if (positionMod k d == j) = true then [h] else []) := by
    intro j
    by_cases hc : (positionMod k d == j) = true
    · rw [if_pos hc]
      rw [show List.filter (fun kv => positionMod kv.1 d == j) [(k, h)]
          = [(k, h)] from by rw [List.filter_cons, if_pos hc, List.filter_nil]]
      rfl
    · rw [if_neg hc]
      rw [show List.filter (fun kv => positionMod kv.1 d == j) [(k, h)]
          = [] from by rw [List.filter_cons, if_neg hc, List.filter_nil]]
      rfl
  have hnew : (buildLeafItems (m ++ [(k, h)]) d).getD i []
      = ((m.filter (fun kv => positionMod kv.1 d == i)).map Prod.snd)
        ++ (if (positionMod k d == i) = true then [h] else []) := by
    rw [buildLeafItems_getD _ _ _ hi, List.filter_append, List.map_append,
      hsingle i]
  unfold bucketAt
  rw [hLH, hnew]
  by_cases hceq : positionMod k d = i
  · rw [hceq] at hposlen ⊢
    rw [if_pos (beq_self_eq_true i), getD_set_self hposlen]
    refine (sortBytes_perm _).trans ?_
    refine List.Perm.append ?_ (List.Perm.refl [h])
    have hb2 := hb i hi
    rw [buildLeafItems_getD _ _ _ hi] at hb2
    exact hb2
  · have hcne : ¬((positionMod k d == i) = true) := by
      intro hc2
      exact hceq (by rw [← Nat.beq_eq_true_eq]; exact hc2)
    rw [if_neg hcne, List.append_nil, getD_set_ne hceq]
    have hb2 := hb i hi
    rw [buildLeafItems_getD _ _ _ hi] at hb2
    exact hb2

theorem setItem_inv (H : Bytes → Bytes) (s : HDState) (k v : Bytes)
    (hfresh : (s.entries.lookup k).isNone = true)
    (hdig : hashItem H k v ∉ s.keyToHash.map Prod.snd)
    (hInv : HDInv H s) : HDInv H (setItem H s k v) := by
  obtain ⟨h1, h2, h3, h4⟩ := hInv
  have hkm : k ∉ s.entries.map Prod.fst := (lookup_isNone_iff _ _).mp hfresh
  have hkm2 : k ∉ s.keyToHash.map Prod.fst := by rw [← h1]; exact hkm
  have hE : assocSet s.entries k v = s.entries ++ [(k, v)] :=
    assocSet_of_not_mem _ k v hkm
  have hK : assocSet s.keyToHash k (hashItem H k v)
      = s.keyToHash ++ [(k, hashItem H k v)] := assocSet_of_not_mem _ k _ hkm2
  have hsm : setItem H s k v = manageCachedTrees H
      { s with
        entries := assocSet s.entries k v
        keyToHash := assocSet s.keyToHash k (hashItem H k v)
        trees := (if (s.entries.lookup k).isSome then
            s.trees.map (fun p => (p.1, treeDelete H p.2 k (hashItem H k v)))
          else s.trees).map
            (fun p => (p.1, treeAdd H p.2 k (hashItem H k v))) } := rfl
  rw [hsm]
  apply manage_inv
  have hreduce : (if (s.entries.lookup k).isSome then
        s.trees.map (fun p => (p.1, treeDelete H p.2 k (hashItem H k v)))
      else s.trees) = s.trees := by
    rw [Option.isNone_iff_eq_none.mp hfresh]
    rfl
  refine ⟨?_, ?_, ?_, ?_⟩
  · show (assocSet s.entries k v).map Prod.fst
        = (assocSet s.keyToHash k (hashItem H k v)).map Prod.fst
    rw [hE, hK, List.map_append, List.map_append, h1]
    rfl
  · show ((assocSet s.entries k v).map Prod.fst).Nodup
    rw [hE, List.map_append, List.nodup_append]
    refine ⟨h2, by simp, ?_⟩
    rw [List.disjoint_left]
    intro a ha hb
    rw [show ([(k, v)].map Prod.fst) = [k] from rfl, List.mem_singleton] at hb
    subst hb
    exact hkm ha
  · show ((assocSet s.keyToHash k (hashItem H k v)).map Prod.snd).Nodup
    rw [hK, List.map_append, List.nodup_append]
    refine ⟨h3, by simp, ?_⟩
    rw [List.disjoint_left]
    intro a ha hb
    rw [show ([(k, hashItem H k v)].map Prod.snd) = [hashItem H k v] from rfl,
      List.mem_singleton] at hb
    subst hb
    exact hdig ha
  · intro d t hmem
    have hmem2 : (d, t) ∈ (if (s.entries.lookup k).isSome then
          s.trees.map (fun p => (p.1, treeDelete H p.2 k (hashItem H k v)))
        else s.trees).map
          (fun p => (p.1, treeAdd H p.2 k (hashItem H k v))) := hmem
    rw [hreduce, List.mem_map] at hmem2
    obtain ⟨⟨d0, t0⟩, hmem0, heq⟩ := hmem2
    obtain ⟨hd0, ht0⟩ := (Prod.mk.injEq _ _ _ _).mp heq
    subst hd0
    subst ht0
    show treeOk H (assocSet s.keyToHash k (hashItem H k v)) d0
      (treeAdd H t0 k (hashItem H k v))
    rw [hK]
    exact treeAdd_treeOk H s.keyToHash d0 t0 k (hashItem H k v) (h4 d0 t0 hmem0)

theorem treeDelete_treeOk (H : Bytes → Bytes) (l1 l2 : List (Bytes × Bytes))
    (d : Nat) (t : HashTree) (k h : Bytes)
    (ht : treeOk H (l1 ++ (k, h) :: l2) d t)
    (hdig : h ∉ (l1 ++ l2).map Prod.snd) :
    treeOk H (l1 ++ l2) d (treeDelete H t k h) := by
  obtain ⟨hd, hwf, hok, hb⟩ := ht
  obtain ⟨hwf2, hok2, hd2, hLH⟩ := treeDelete_spec H t k h hwf hok
  refine ⟨hd2.trans hd, hwf2, hok2, ?_⟩
  intro i hi
  have hposlen : positionMask k t.depth < t.leafHashes.length := by
    rw [hwf.1]; exact positionMask_lt k t.depth
  have hpm : positionMask k t.depth = positionMod k d := by
    rw [positionMask_eq_positionMod, hd]
  rw [hpm] at hLH hposlen
  have hd1 : h ∉ l1.map Prod.snd := fun hc => hdig (by
    rw [List.map_append, List.mem_append]; exact Or.inl hc)
  have hd2x : h ∉ l2.map Prod.snd := fun hc => hdig (by
    rw [List.map_append, List.mem_append]; exact Or.inr hc)
  have hmid : ∀ j : Nat,
      (List.filter (fun kv => positionMod kv.1 d == j) ((k, h) :: l2)).map
        Prod.snd
        = (if (positionMod k d == j) = true then [h] else [])
          ++ (l2.filter (fun kv => positionMod kv.1 d == j)).map Prod.snd := by
    intro j
    by_cases hceq : positionMod k d = j
    · have hc : (positionMod k d == j) = true := by
        rw [hceq]; exact beq_self_eq_true j
      rw [List.filter_cons, if_pos hc, if_pos hc]
      rfl
    · have hc : ¬((positionMod k d == j) = true) := fun hc2 =>
        hceq (by rw [← Nat.beq_eq_true_eq]; exact hc2)
      rw [List.filter_cons, if_neg hc, if_neg hc]
      rfl
  have hold : (buildLeafItems (l1 ++ (k, h) :: l2) d).getD i []
      = ((l1.filter (fun kv => positionMod kv.1 d == i)).map Prod.snd)
        ++ ((if (positionMod k d == i) = true then [h] else [])
          ++ ((l2.filter (fun kv => positionMod kv.1 d == i)).map Prod.snd)) := by
    rw [buildLeafItems_getD _ _ _ hi, List.filter_append, List.map_append,
      hmid i]
  have hnew : (buildLeafItems (l1 ++ l2) d).getD i []
      = ((l1.filter (fun kv => positionMod kv.1 d == i)).map Prod.snd)
        ++ ((l2.filter (fun kv => positionMod kv.1 d == i)).map Prod.snd) := by
    rw [buildLeafItems_getD _ _ _ hi, List.filter_append, List.map_append]
  unfold bucketAt
  rw [hLH, hnew]
  have hbold := hb i hi
  rw [hold] at hbold
  by_cases hceq : positionMod k d = i
  · rw [hceq] at hposlen ⊢
    rw [getD_set_self hposlen]
    refine (sortBytes_perm _).trans ?_
    have hiftrue : (if (positionMod k d == i) = true then [h]
        else ([] : List Bytes)) = [h] := by
      rw [if_pos (by rw [hceq]; exact beq_self_eq_true i)]
    rw [hiftrue] at hbold
    rw [removeAll_filter]
    refine (hbold.filter _).trans ?_
    rw [List.filter_append, List.filter_append]
    rw [show List.filter (fun x => decide (x ≠ h)) [h] = [] from by simp]
    rw [List.nil_append]
    have hA : ∀ a ∈ (l1.filter (fun kv => positionMod kv.1 d == i)).map
        Prod.snd, (decide (a ≠ h)) = true := by
      intro a ha
      rw [decide_eq_true_eq]
      intro hc
      subst hc
      apply hd1
      rw [List.mem_map] at ha
      obtain ⟨pr, hpr, hsnd⟩ := ha
      rw [← hsnd]
      exact List.mem_map_of_mem Prod.snd (List.mem_of_mem_filter hpr)
    have hB : ∀ a ∈ (l2.filter (fun kv => positionMod kv.1 d == i)).map
        Prod.snd, (decide (a ≠ h)) = true := by
      intro a ha
      rw [decide_eq_true_eq]
      intro hc
      subst hc
      apply hd2x
      rw [List.mem_map] at ha
      obtain ⟨pr, hpr, hsnd⟩ := ha
      rw [← hsnd]
      exact List.mem_map_of_mem Prod.snd (List.mem_of_mem_filter hpr)
    rw [List.filter_eq_self.mpr hA, List.filter_eq_self.mpr hB]
  · have hcne : ¬((positionMod k d == i) = true) := fun hc2 =>
      hceq (by rw [← Nat.beq_eq_true_eq]; exact hc2)
    rw [getD_set_ne hceq]
    rw [show (if (positionMod k d == i) = true then [h]
        else ([] : List Bytes)) = [] from if_neg hcne] at hbold
    rw [List.nil_append] at hbold
    exact hbold

theorem delItem_inv (H : Bytes → Bytes) (s : HDState) (k : Bytes)
    (hpres : (s.entries.lookup k).isSome = true)
    (hInv : HDInv H s) : HDInv H (delItem H s k) := by
  obtain ⟨h1, h2, h3, h4⟩ := hInv
  have hk_entries : k ∈ s.entries.map Prod.fst := (lookup_isSome_iff _ _).mp hpres
  have hk_kth : k ∈ s.keyToHash.map Prod.fst := h1 ▸ hk_entries
  have hks : (s.keyToHash.lookup k).isSome = true :=
    (lookup_isSome_iff _ _).mpr hk_kth
  obtain ⟨h0, hh0⟩ := Option.isSome_iff_exists.mp hks
  obtain ⟨l1, l2, hdec, hno1⟩ := lookup_decomp s.keyToHash k h0 hh0
  have hdig : h0 ∉ (l1 ++ l2).map Prod.snd := by
    have h3b := h3
    rw [hdec, List.map_append, List.map_cons, List.nodup_append] at h3b
    obtain ⟨hA, hB, hD⟩ := h3b
    rw [List.nodup_cons] at hB
    rw [List.map_append, List.mem_append]
    rintro (hin | hin)
    · exact hD hin (List.mem_cons_self _ _)
    · exact hB.1 hin
  have hKerase : assocErase s.keyToHash k = l1 ++ l2 := by
    rw [hdec]
    exact assocErase_append_cons l1 l2 k h0 hno1
  have hdd : delItem H s k = { manageCachedTrees H s with
      entries := assocErase s.entries k
      keyToHash := assocErase s.keyToHash k
      trees := (manageCachedTrees H s).trees.map
        (fun p => (p.1, treeDelete H p.2 k
          ((s.keyToHash.lookup k).getD []))) } := rfl
  obtain ⟨m1, m2, m3, m4⟩ := manage_inv H s ⟨h1, h2, h3, h4⟩
  rw [hdd]
  refine ⟨?_, ?_, ?_, ?_⟩
  · show (assocErase s.entries k).map Prod.fst
        = (assocErase s.keyToHash k).map Prod.fst
    rw [map_fst_assocErase, map_fst_assocErase, h1]
  · show ((assocErase s.entries k).map Prod.fst).Nodup
    rw [map_fst_assocErase]
    exact List.Nodup.sublist (List.eraseP_sublist _) h2
  · show ((assocErase s.keyToHash k).map Prod.snd).Nodup
    rw [hKerase]
    have hsub0 : (l1 ++ l2).Sublist (l1 ++ (k, h0) :: l2) :=
      List.Sublist.append_left (List.sublist_cons_self _ _) l1
    have hsub : ((l1 ++ l2).map Prod.snd).Sublist
        (s.keyToHash.map Prod.snd) := by
      rw [hdec]
      exact List.Sublist.map Prod.snd hsub0
    exact List.Nodup.sublist hsub h3
  · intro d t hmem
    have hmem2 : (d, t) ∈ (manageCachedTrees H s).trees.map
        (fun p => (p.1, treeDelete H p.2 k
          ((s.keyToHash.lookup k).getD []))) := hmem
    rw [List.mem_map] at hmem2
    obtain ⟨⟨d0, t0⟩, hmem0, heq⟩ := hmem2
    obtain ⟨hd0, ht0⟩ := (Prod.mk.injEq _ _ _ _).mp heq
    subst hd0
    subst ht0
    have ht0b : treeOk H s.keyToHash d0 t0 := m4 d0 t0 hmem0
    rw [hdec] at ht0b
    have hhv : (s.keyToHash.lookup k).getD [] = h0 := by rw [hh0]; rfl
    show treeOk H (assocErase s.keyToHash k) d0
      (treeDelete H t0 k ((s.keyToHash.lookup k).getD []))
    rw [hhv, hKerase]
    exact treeDelete_treeOk H l1 l2 d0 t0 k h0 ht0b hdig

theorem initHD_inv (H : Bytes → Bytes) (W : Nat) : HDInv H (initHD H W) := by
  refine ⟨rfl, List.nodup_nil, List.nodup_nil, ?_⟩
  intro d t hmem
  have hmem2 : (d, t) ∈ [(0, treeInit H ([] : List (Bytes × Bytes)) 0)] := hmem
  rw [List.mem_singleton] at hmem2
  obtain ⟨hd0, ht0⟩ := (Prod.mk.injEq _ _ _ _).mp hmem2
  subst hd0
  subst ht0
  exact treeInit_treeOk H [] 0

theorem okRun_of_goodRun (H : Bytes → Bytes) :
    ∀ (ops : List DictOp) (s : HDState), goodRun H s ops = true →
      okRun H s ops = true := by
  intro ops
  induction ops with
  | nil => intro s _; rfl
  | cons op rest ih =>
    intro s h
    have h2 := (Bool.and_eq_true _ _).mp h
    show (okOp s op && okRun H (runOp H s op) rest) = true
    rw [ih (runOp H s op) h2.2, Bool.and_true]
    cases op with
    | set k v => rfl
    | del k => exact h2.1

theorem goodRun_append (H : Bytes → Bytes) :
    ∀ (l1 : List DictOp) (s : HDState) (l2 : List DictOp),
      goodRun H s (l1 ++ l2)
        = (goodRun H s l1 && goodRun H (runOps H s l1) l2) := by
  intro l1
  induction l1 with
  | nil => intro s l2; rfl
  | cons op rest ih =>
    intro s l2
    show (goodOp H s op && goodRun H (runOp H s op) (rest ++ l2)) = _
    rw [ih (runOp H s op) l2]
    rw [show goodRun H s (op :: rest)
        = (goodOp H s op && goodRun H (runOp H s op) rest) from rfl]
    rw [Bool.and_assoc]
    rfl

theorem goodRun_inv (H : Bytes → Bytes) :
    ∀ (ops : List DictOp) (s : HDState), HDInv H s → goodRun H s ops = true →
      HDInv H (runOps H s ops) := by
  intro ops
  induction ops with
  | nil => intro s h _; exact h
  | cons op rest ih =>
    intro s hInv h
    have h2 := (Bool.and_eq_true _ _).mp h
    show HDInv H (runOps H (runOp H s op) rest)
    apply ih _ _ h2.2
    cases op with
    | set k v =>
      have hg2 := (Bool.and_eq_true _ _).mp h2.1
      exact setItem_inv H s k v hg2.1 (by simpa using hg2.2) hInv
    | del k => exact delItem_inv H s k h2.1 hInv

theorem getHash_isSome_of_okRun (H : Bytes → Bytes) (W : Nat) (hW : 2 ≤ W)
    (ops : List DictOp) (hok : okRun H (initHD H W) ops = true) :
    (getHash (runOps H (initHD H W) ops)).isSome = true := by
  rcases List.eq_nil_or_concat ops with hnil | ⟨l, op, hcat⟩
  · subst hnil; rfl
  · subst hcat
    rw [List.concat_eq_append] at hok ⊢
    have hrun : runOps H (initHD H W) (l ++ [op])
        = runOp H (runOps H (initHD H W) l) op := by
      rw [runOps_append]
      rfl
    have hcs : (runOps H (initHD H W) l).cacheSize = W :=
      runOps_cacheSize H l (initHD H W)
    rw [okRun_append H l (initHD H W) [op]] at hok
    have hokop : okOp (runOps H (initHD H W) l) op = true := by
      have h2 := ((Bool.and_eq_true _ _).mp hok).2
      have h3 : (okOp (runOps H (initHD H W) l) op && true) = true := h2
      simpa using h3
    rw [hrun]
    cases op with
    | set k v =>
      have h1 := setItem_lookup H (runOps H (initHD H W) l) k v
        (getDepthForLength
          (assocSet (runOps H (initHD H W) l).entries k v).length)
      rw [hcs] at h1
      have h3 := h1.mpr (depth_mem_allowed_self (le_trans (by decide) hW))
      obtain ⟨t, ht⟩ := Option.isSome_iff_exists.mp h3
      have hE : (runOp H (runOps H (initHD H W) l) (DictOp.set k v)).entries
          = assocSet (runOps H (initHD H W) l).entries k v := rfl
      have ht2 : (runOp H (runOps H (initHD H W) l) (DictOp.set k v)).trees.lookup
          (getDepthForLength
            (assocSet (runOps H (initHD H W) l).entries k v).length)
          = some t := ht
      unfold getHash
      rw [hE, ht2]
      rfl
    | del k =>
      have hsome : ((runOps H (initHD H W) l).entries.lookup k).isSome = true :=
        hokop
      obtain ⟨v, hv⟩ := Option.isSome_iff_exists.mp hsome
      have hmem : (k, v) ∈ (runOps H (initHD H W) l).entries := lookup_mem hv
      have hlen : (assocErase (runOps H (initHD H W) l).entries k).length
          = (runOps H (initHD H W) l).entries.length - 1 :=
        assocErase_length _ k v hmem
      have hpos : 0 < (runOps H (initHD H W) l).entries.length :=
        List.length_pos_of_mem hmem
      have hlen2 : (runOps H (initHD H W) l).entries.length
          = (assocErase (runOps H (initHD H W) l).entries k).length + 1 := by
        omega
      have h1 := delItem_lookup H (runOps H (initHD H W) l) k
        (getDepthForLength
          (assocErase (runOps H (initHD H W) l).entries k).length)
      rw [hcs, hlen2] at h1
      have h3 := h1.mpr (depth_mem_allowed_pred hW)
      obtain ⟨t, ht⟩ := Option.isSome_iff_exists.mp h3
      have hE : (runOp H (runOps H (initHD H W) l) (DictOp.del k)).entries
          = assocErase (runOps H (initHD H W) l).entries k := rfl
      have ht2 : (runOp H (runOps H (initHD H W) l) (DictOp.del k)).trees.lookup
          (getDepthForLength
            (assocErase (runOps H (initHD H W) l).entries k).length)
          = some t := ht
      unfold getHash
      rw [hE, ht2]
      rfl

theorem getHash_eq_rootOfMap (H : Bytes → Bytes) (s : HDState)
    (hInv : HDInv H s) (hsome : (getHash s).isSome = true) :
    getHash s = some (rootOfMap H s.keyToHash
      (getDepthForLength s.entries.length)) := by
  unfold getHash at hsome ⊢
  cases hE : s.trees.lookup (getDepthForLength s.entries.length) with
  | none => rw [hE] at hsome; exact absurd hsome (by simp)
  | some t =>
    obtain ⟨hd, hwf, hok, hb⟩ := hInv.2.2.2 _ _ (lookup_mem hE)
    show some (treeGetHash t) = _
    exact congrArg some (treeGetHash_of_map H t s.keyToHash _ hd hwf hok hb)

/-! ## Tracking two runs that differ by one live entry (claim C7) -/

theorem set_sandwich {β : Type} (l1 l2 : List (Bytes × β)) (k kp : Bytes)
    (x y : β) (hfresh : kp ∉ (l1 ++ (k, x) :: l2).map Prod.fst) :
    assocSet (l1 ++ (k, x) :: l2) kp y = l1 ++ (k, x) :: (l2 ++ [(kp, y)])
    ∧ assocSet (l1 ++ l2) kp y = l1 ++ (l2 ++ [(kp, y)]) := by
  have hf2 : kp ∉ (l1 ++ l2).map Prod.fst := by
    intro hc
    apply hfresh
    rw [List.map_append, List.mem_append] at hc
    rw [List.map_append, List.map_cons, List.mem_append]
    rcases hc with h | h
    · exact Or.inl h
    · exact Or.inr (List.mem_cons_of_mem _ h)
  constructor
  · rw [assocSet_of_not_mem _ _ _ hfresh, List.append_assoc]
    rfl
  · rw [assocSet_of_not_mem _ _ _ hf2, List.append_assoc]

theorem erase_sandwich {β : Type} (l1 l2 : List (Bytes × β)) (k kp : Bytes)
    (x : β) (hne : kp ≠ k) :
    ∃ m1 m2, assocErase (l1 ++ (k, x) :: l2) kp = m1 ++ (k, x) :: m2
      ∧ assocErase (l1 ++ l2) kp = m1 ++ m2 := by
  by_cases hmem : ∃ pr ∈ l1, pr.1 = kp
  · obtain ⟨pr, hpr, hpk⟩ := hmem
    refine ⟨assocErase l1 kp, l2, ?_, ?_⟩
    · unfold assocErase
      exact List.eraseP_append_left (by rw [decide_eq_true_eq]; exact hpk) _ hpr
    · unfold assocErase
      exact List.eraseP_append_left (by rw [decide_eq_true_eq]; exact hpk) _ hpr
  · push_neg at hmem
    have hno : ∀ b ∈ l1, ¬(decide (b.1 = kp)) = true := by
      intro b hb hc
      rw [decide_eq_true_eq] at hc
      exact hmem b hb hc
    refine ⟨l1, assocErase l2 kp, ?_, ?_⟩
    · unfold assocErase
      rw [List.eraseP_append_right _ hno]
      rw [List.eraseP_cons_of_neg (by
        rw [decide_eq_true_eq]; exact fun hc => hne hc.symm)]
    · unfold assocErase
      rw [List.eraseP_append_right _ hno]

/-- The two runs of claim C7 after the add: same state except that the
first run holds the extra live entry `(k, v)` (and its digest) somewhere
in the middle of its maps. -/
def MidRel (k v h : Bytes) (sA sB : HDState) : Prop :=
  (∃ e1 e2, sA.entries = e1 ++ (k, v) :: e2 ∧ sB.entries = e1 ++ e2) ∧
  (∃ l1 l2, sA.keyToHash = l1 ++ (k, h) :: l2 ∧ sB.keyToHash = l1 ++ l2)

theorem mid_run (H : Bytes → Bytes) (k v : Bytes) :
    ∀ (ops : List DictOp) (sA sB : HDState),
      (∀ o ∈ ops, DictOp.key o ≠ k) →
      goodRun H sA ops = true →
      HDInv H sA → HDInv H sB →
      MidRel k v (hashItem H k v) sA sB →
      HDInv H (runOps H sA ops) ∧ HDInv H (runOps H sB ops) ∧
      goodRun H sB ops = true ∧
      MidRel k v (hashItem H k v) (runOps H sA ops) (runOps H sB ops) := by
  intro ops
  induction ops with
  | nil =>
    intro sA sB _ _ hA hB hM
    exact ⟨hA, hB, rfl, hM⟩
  | cons op rest ih =>
    intro sA sB hkeys hgood hA hB hM
    have hg2 := (Bool.and_eq_true _ _).mp hgood
    have hkop : DictOp.key op ≠ k := hkeys op (List.mem_cons_self _ _)
    have hkeys2 : ∀ o ∈ rest, DictOp.key o ≠ k := fun o ho =>
      hkeys o (List.mem_cons_of_mem _ ho)
    obtain ⟨hEd, hKd⟩ := hM
    obtain ⟨e1, e2, hAe, hBe⟩ := hEd
    obtain ⟨l1, l2, hAk, hBk⟩ := hKd
    have hstep : goodOp H sB op = true ∧ HDInv H (runOp H sA op)
        ∧ HDInv H (runOp H sB op)
        ∧ MidRel k v (hashItem H k v) (runOp H sA op) (runOp H sB op) := by
      cases op with
      | set kp vp =>
        have hkp : kp ≠ k := hkop
        have hgs := (Bool.and_eq_true _ _).mp hg2.1
        have hfreshA : kp ∉ sA.entries.map Prod.fst :=
          (lookup_isNone_iff _ _).mp hgs.1
        have hdigA : hashItem H kp vp ∉ sA.keyToHash.map Prod.snd := by
          simpa using hgs.2
        have hfreshAk : kp ∉ sA.keyToHash.map Prod.fst := by
          rw [← hA.1]; exact hfreshA
        have hfreshB : kp ∉ sB.entries.map Prod.fst := by
          rw [hBe]
          intro hc
          apply hfreshA
          rw [hAe, List.map_append, List.map_cons, List.mem_append]
          rw [List.map_append, List.mem_append] at hc
          rcases hc with h | h
          · exact Or.inl h
          · exact Or.inr (List.mem_cons_of_mem _ h)
        have hdigB : hashItem H kp vp ∉ sB.keyToHash.map Prod.snd := by
          rw [hBk]
          intro hc
          apply hdigA
          rw [hAk, List.map_append, List.map_cons, List.mem_append]
          rw [List.map_append, List.mem_append] at hc
          rcases hc with h | h
          · exact Or.inl h
          · exact Or.inr (List.mem_cons_of_mem _ h)
        have hgB : goodOp H sB (DictOp.set kp vp) = true := by
          refine (Bool.and_eq_true _ _).mpr ⟨?_, ?_⟩
          · exact (lookup_isNone_iff _ _).mpr hfreshB
          · simpa using hdigB
        have hAfreshEq : kp ∉ (e1 ++ (k, v) :: e2).map Prod.fst := by
          rw [← hAe]; exact hfreshA
        have hAfreshKq : kp ∉ (l1 ++ (k, hashItem H k v) :: l2).map
            Prod.fst := by
          rw [← hAk]; exact hfreshAk
        obtain ⟨hs1, hs2⟩ := set_sandwich e1 e2 k kp v vp hAfreshEq
        obtain ⟨hs3, hs4⟩ := set_sandwich l1 l2 k kp (hashItem H k v)
          (hashItem H kp vp) hAfreshKq
        refine ⟨hgB, setItem_inv H sA kp vp hgs.1 hdigA hA,
          setItem_inv H sB kp vp ((lookup_isNone_iff _ _).mpr hfreshB)
            hdigB hB,
          ⟨⟨e1, e2 ++ [(kp, vp)], ?_, ?_⟩,
           ⟨l1, l2 ++ [(kp, hashItem H kp vp)], ?_, ?_⟩⟩⟩
        · show (setItem H sA kp vp).entries = _
          rw [setItem_entries, hAe, hs1]
        · show (setItem H sB kp vp).entries = _
          rw [setItem_entries, hBe, hs2]
        · show (setItem H sA kp vp).keyToHash = _
          rw [setItem_keyToHash, hAk, hs3]
        · show (setItem H sB kp vp).keyToHash = _
          rw [setItem_keyToHash, hBk, hs4]
      | del kp =>
        have hkp : kp ≠ k := hkop
        have hpresA : (sA.entries.lookup kp).isSome = true := hg2.1
        have hkmemA : kp ∈ sA.entries.map Prod.fst :=
          (lookup_isSome_iff _ _).mp hpresA
        have hkmemB : kp ∈ sB.entries.map Prod.fst := by
          rw [hBe, List.map_append, List.mem_append]
          rw [hAe, List.map_append, List.map_cons, List.mem_append] at hkmemA
          rcases hkmemA with h | h
          · exact Or.inl h
          · rw [List.mem_cons] at h
            rcases h with h | h
            · exact absurd h hkp
            · exact Or.inr h
        have hpresB : (sB.entries.lookup kp).isSome = true :=
          (lookup_isSome_iff _ _).mpr hkmemB
        obtain ⟨m1, m2, he1, he2⟩ := erase_sandwich e1 e2 k kp v hkp
        obtain ⟨n1, n2, hk1, hk2⟩ := erase_sandwich l1 l2 k kp
          (hashItem H k v) hkp
        refine ⟨hpresB, delItem_inv H sA kp hpresA hA,
          delItem_inv H sB kp hpresB hB,
          ⟨⟨m1, m2, ?_, ?_⟩, ⟨n1, n2, ?_, ?_⟩⟩⟩
        · show (delItem H sA kp).entries = _
          rw [delItem_entries, hAe, he1]
        · show (delItem H sB kp).entries = _
          rw [delItem_entries, hBe, he2]
        · show (delItem H sA kp).keyToHash = _
          rw [delItem_keyToHash, hAk, hk1]
        · show (delItem H sB kp).keyToHash = _
          rw [delItem_keyToHash, hBk, hk2]
    obtain ⟨hgB, hA2, hB2, hM2⟩ := hstep
    obtain ⟨hI1, hI2, hg3, hM3⟩ := ih (runOp H sA op) (runOp H sB op)
      hkeys2 hg2.2 hA2 hB2 hM2
    refine ⟨hI1, hI2, ?_, hM3⟩
    show (goodOp H sB op && goodRun H (runOp H sB op) rest) = true
    rw [hgB, hg3]
    rfl

/-- Counterexample to C7: the claim quantifies over any container
state, but with cache window `W = 1` an instance of its very shape
fails.  Take `ops1 = [d[a] = 1]`, the pair `d[b] = 2` / `del d[b]`
(fresh key, no unrelated mutations interleaved), a fully valid run: the
pair crosses the depth boundary `0 → 1` and back, `__delitem__`
reconciles the cache at the pre-deletion size, the depth-`0` tree is
gone, and `get_hash` fails (`none`) instead of returning the defined
pre-add digest. -/
theorem C7_counterexample :
    goodRun tagHash (initHD tagHash 1)
        ([DictOp.set [97] [1]] ++ DictOp.set [98] [2]
          :: ([] ++ [DictOp.del [98]])) = true
    ∧ (getHash (runOps tagHash (initHD tagHash 1)
        ([DictOp.set [97] [1]] ++ []))).isSome = true
    ∧ getHash (runOps tagHash (initHD tagHash 1)
        ([DictOp.set [97] [1]] ++ DictOp.set [98] [2]
          :: ([] ++ [DictOp.del [98]])))
      ≠ getHash (runOps tagHash (initHD tagHash 1)
          ([DictOp.set [97] [1]] ++ [])) := by
  refine ⟨by decide, by decide, by decide⟩

/-- C7 (amended): the add/delete inverse law holds under the conditions
the code actually needs — cache window `W ≥ 2` (a boundary-crossing
delete with `W = 1` evicts the needed tree, see C2), no interleaved
mutation touching `k`, and a run that is valid in the strong sense:
sets only of fresh keys whose leaf digests are not already stored
(overwrites leave a stale digest behind, see C1, and a digest collision
would make the delete loop remove both occurrences, see C3), deletions
only of present keys.  Then running `d[k] = v`, any such unrelated
mutations, and `del d[k]` yields the same `get_hash` as the run without
the add/delete pair, and that digest is defined.  This covers
depth-boundary crossings: the roots agree because both final states
hold the same key-to-digest snapshot and every warm tree is consistent
with it. -/
theorem C7_add_delete_inverse (H : Bytes → Bytes) (W : Nat)
    (ops1 ops2 : List DictOp) (k v : Bytes) (hW : 2 ≤ W)
    (hk2 : ∀ o ∈ ops2, DictOp.key o ≠ k)
    (hgood : goodRun H (initHD H W)
      (ops1 ++ DictOp.set k v :: (ops2 ++ [DictOp.del k])) = true) :
    getHash (runOps H (initHD H W)
        (ops1 ++ DictOp.set k v :: (ops2 ++ [DictOp.del k])))
      = getHash (runOps H (initHD H W) (ops1 ++ ops2))
    ∧ (getHash (runOps H (initHD H W) (ops1 ++ ops2))).isSome = true := by
  have hokA : okRun H (initHD H W)
      (ops1 ++ DictOp.set k v :: (ops2 ++ [DictOp.del k])) = true :=
    okRun_of_goodRun H _ _ hgood
  rw [goodRun_append H ops1 (initHD H W)
    (DictOp.set k v :: (ops2 ++ [DictOp.del k]))] at hgood
  have hg1 : goodRun H (initHD H W) ops1 = true :=
    ((Bool.and_eq_true _ _).mp hgood).1
  have hgrest := ((Bool.and_eq_true _ _).mp hgood).2
  have hgrest2 := (Bool.and_eq_true _ _).mp
    (show (goodOp H (runOps H (initHD H W) ops1) (DictOp.set k v)
      && goodRun H (runOp H (runOps H (initHD H W) ops1) (DictOp.set k v))
          (ops2 ++ [DictOp.del k])) = true from hgrest)
  have hg3 := hgrest2.2
  rw [goodRun_append H ops2
    (runOp H (runOps H (initHD H W) ops1) (DictOp.set k v))
    [DictOp.del k]] at hg3
  have hg4 : goodRun H (runOp H (runOps H (initHD H W) ops1)
      (DictOp.set k v)) ops2 = true := ((Bool.and_eq_true _ _).mp hg3).1
  have hInv1 : HDInv H (runOps H (initHD H W) ops1) :=
    goodRun_inv H ops1 (initHD H W) (initHD_inv H W) hg1
  have hgset := (Bool.and_eq_true _ _).mp hgrest2.1
  have hdigA : hashItem H k v
      ∉ (runOps H (initHD H W) ops1).keyToHash.map Prod.snd := by
    simpa using hgset.2
  have hInvA1 : HDInv H (runOp H (runOps H (initHD H W) ops1)
      (DictOp.set k v)) :=
    setItem_inv H _ k v hgset.1 hdigA hInv1
  have hfresh1 : k ∉ (runOps H (initHD H W) ops1).entries.map Prod.fst :=
    (lookup_isNone_iff _ _).mp hgset.1
  have hM0 : MidRel k v (hashItem H k v)
      (runOp H (runOps H (initHD H W) ops1) (DictOp.set k v))
      (runOps H (initHD H W) ops1) := by
    refine ⟨⟨(runOps H (initHD H W) ops1).entries, [], ?_, ?_⟩,
      ⟨(runOps H (initHD H W) ops1).keyToHash, [], ?_, ?_⟩⟩
    · show (setItem H (runOps H (initHD H W) ops1) k v).entries = _
      rw [setItem_entries, assocSet_of_not_mem _ _ _ hfresh1]
    · rw [List.append_nil]
    · show (setItem H (runOps H (initHD H W) ops1) k v).keyToHash = _
      rw [setItem_keyToHash, assocSet_of_not_mem _ _ _ (by
        rw [← hInv1.1]; exact hfresh1)]
    · rw [List.append_nil]
  obtain ⟨hInvA2, hInvB2, hgB2, hM2⟩ := mid_run H k v ops2
    (runOp H (runOps H (initHD H W) ops1) (DictOp.set k v))
    (runOps H (initHD H W) ops1) hk2 hg4 hInvA1 hInv1 hM0
  obtain ⟨⟨e1, e2, hAe, hBe⟩, ⟨l1, l2, hAk, hBk⟩⟩ := hM2
  have hnodA : ((runOps H (runOp H (runOps H (initHD H W) ops1)
      (DictOp.set k v)) ops2).entries.map Prod.fst).Nodup := hInvA2.2.1
  have hknodA : ((runOps H (runOp H (runOps H (initHD H W) ops1)
      (DictOp.set k v)) ops2).keyToHash.map Prod.fst).Nodup := by
    rw [← hInvA2.1]; exact hnodA
  have hkn1 : k ∉ e1.map Prod.fst := by
    rw [hAe, List.map_append, List.map_cons, List.nodup_append] at hnodA
    intro hc
    exact hnodA.2.2 hc (List.mem_cons_self _ _)
  have hkl1 : k ∉ l1.map Prod.fst := by
    rw [hAk, List.map_append, List.map_cons, List.nodup_append] at hknodA
    intro hc
    exact hknodA.2.2 hc (List.mem_cons_self _ _)
  have hsplit : ops1 ++ DictOp.set k v :: (ops2 ++ [DictOp.del k])
      = ((ops1 ++ [DictOp.set k v]) ++ ops2) ++ [DictOp.del k] := by
    simp
  have hArun : runOps H (initHD H W)
      (ops1 ++ DictOp.set k v :: (ops2 ++ [DictOp.del k]))
      = delItem H (runOps H (runOp H (runOps H (initHD H W) ops1)
          (DictOp.set k v)) ops2) k := by
    rw [hsplit, runOps_append, runOps_append, runOps_append]
    rfl
  have hBrun : runOps H (initHD H W) (ops1 ++ ops2)
      = runOps H (runOps H (initHD H W) ops1) ops2 :=
    runOps_append H (initHD H W) ops1 ops2
  have hkinA : ((runOps H (runOp H (runOps H (initHD H W) ops1)
      (DictOp.set k v)) ops2).entries.lookup k).isSome = true := by
    apply (lookup_isSome_iff _ _).mpr
    rw [hAe, List.map_append, List.map_cons]
    exact List.mem_append.mpr (Or.inr (List.mem_cons_self _ _))
  have hInvAfin := delItem_inv H _ k hkinA hInvA2
  have hAfe : (delItem H (runOps H (runOp H (runOps H (initHD H W) ops1)
      (DictOp.set k v)) ops2) k).entries = e1 ++ e2 := by
    rw [delItem_entries, hAe, assocErase_append_cons _ _ _ _ hkn1]
  have hAfk : (delItem H (runOps H (runOp H (runOps H (initHD H W) ops1)
      (DictOp.set k v)) ops2) k).keyToHash = l1 ++ l2 := by
    rw [delItem_keyToHash, hAk, assocErase_append_cons _ _ _ _ hkl1]
  have hokB : okRun H (initHD H W) (ops1 ++ ops2) = true := by
    rw [okRun_append H ops1 (initHD H W) ops2]
    exact (Bool.and_eq_true _ _).mpr ⟨okRun_of_goodRun H ops1 _ hg1,
      okRun_of_goodRun H ops2 _ hgB2⟩
  have hsomeA := getHash_isSome_of_okRun H W hW _ hokA
  have hsomeB := getHash_isSome_of_okRun H W hW _ hokB
  have hrootA := getHash_eq_rootOfMap H _ hInvAfin (by
    rw [← hArun]; exact hsomeA)
  have hrootB := getHash_eq_rootOfMap H _ hInvB2 (by
    rw [← hBrun]; exact hsomeB)
  constructor
  · rw [hArun, hBrun, hrootA, hrootB, hAfe, hAfk, hBe, hBk]
  · exact hsomeB

/-- Witness for C7: with `W = 2`, adding key `a`, then adding the
unrelated key `b` (which crosses the depth boundary `1 → 2`), then
deleting `a`, gives the same defined digest as only ever adding `b`. -/
theorem C7_add_delete_inverse_witness :
    getHash (runOps tagHash (initHD tagHash 2)
        ([] ++ DictOp.set [97] [1]
          :: ([DictOp.set [98] [2]] ++ [DictOp.del [97]])))
      = getHash (runOps tagHash (initHD tagHash 2)
          ([] ++ [DictOp.set [98] [2]]))
    ∧ (getHash (runOps tagHash (initHD tagHash 2)
        ([] ++ [DictOp.set [98] [2]]))).isSome = true :=
  C7_add_delete_inverse tagHash 2 [] [DictOp.set [98] [2]] [97] [1]
    (by decide) (by decide) (by decide)
